import Mathlib

/-!
Verification of the core of `tangle`, a kqueue-based recursive filesystem
watcher, against its natural-language specification.

The development shallowly embeds the Python sources:

* `src/tangle/events.py`  — event records and their serialization,
* `src/tangle/comm.py`    — the socket transport (`send_event` / `recv_event`),
* `src/tangle/watcher.py` — the `Watcher` state machine (`register_dir`,
  `register_file`, `unregister`, `update_state`, `process_dir`, `rename_dir`,
  `handle_dir_event`, `handle_file_event`).

External effects are made explicit:

* the kernel filesystem is an observation function (what `os.fwalk` /
  `os.fstat` would report), `none` standing for `FileNotFoundError`;
* descriptor allocation by `os.open` is a monotone counter threaded through
  the state (Python reuses closed numbers, but no behaviour modelled here
  depends on the numeric value of a reused descriptor);
* `os.close` appends the closed descriptor to a log;
* `time.time()` is an explicit clock value passed in by the caller;
* Python exceptions are `Except PyErr`;
* `pickle.dumps`/`loads` on the `_asdict()` form of an event is modelled by
  the ordered field-association list itself (the spec leaves the byte-level
  encoding implementation-defined, requiring only that it round-trips).
-/

namespace Tangle

/-! ## Python `os.path` helpers (posixpath semantics, two-argument forms) -/

/-- `str.startswith` (on the character lists, so that it computes inside
the kernel). -/
def strStartsWith (s p : String) : Bool :=
  p.data.isPrefixOf s.data

/-- `str.endswith`. -/
def strEndsWith (s p : String) : Bool :=
  p.data.reverse.isPrefixOf s.data.reverse

/-- Python `os.path.join(a, b)` for POSIX paths. -/
def pjoin (a b : String) : String :=
  if strStartsWith b "/" then b
  else if a = "" ∨ strEndsWith a "/" then a ++ b
  else a ++ "/" ++ b

/-- Drop trailing `'/'` characters (Python `str.rstrip('/')`). -/
def rstripSlash (s : String) : String :=
  String.mk ((s.data.reverse.dropWhile (· = '/')).reverse)

/-- Is the string made of slashes only (and nonempty strings of them)? -/
def allSlashes (s : String) : Bool :=
  s.data.all (· = '/')

/-- Split a character list at the last `'/'`: the first component keeps the
slash, the second is everything after it. -/
def splitLastSlash (cs : List Char) : List Char × List Char :=
  let (tl, rest) := cs.reverse.span (· ≠ '/')
  (rest.reverse, tl.reverse)

/-- Python `os.path.split(p)`. -/
def psplit (p : String) : String × String :=
  let (h, t) := splitLastSlash p.data
  let head := String.mk h
  let head := if head = "" then head
              else if allSlashes head then head
              else rstripSlash head
  (head, String.mk t)

/-- Python `os.path.dirname(p)`. -/
def pdirname (p : String) : String := (psplit p).1

/-! ## Event model (`src/tangle/events.py`) -/

/-- `EventType` enumeration. -/
inductive EventType where
  | create_file
  | create_dir
  | write
  | delete
  | rename_file
  | rename_dir
  | started
  | stopped
  | shutdown
deriving DecidableEq, Repr

/-- The small-integer value of each `EventType` member. -/
def EventType.val : EventType → Nat
  | .create_file => 0
  | .create_dir => 1
  | .write => 2
  | .delete => 3
  | .rename_file => 4
  | .rename_dir => 5
  | .started => 9
  | .stopped => 10
  | .shutdown => 69

/-- The `LocalEvent` namedtuple: `(type, inode, time, name, fd)`.
`time` stands for the float timestamp; it is never computed with, only
stored and transported, so it is kept as an opaque integer-valued clock. -/
structure LocalEvent where
  type : EventType
  inode : Int
  time : Int
  name : String
  fd : Option Int
deriving DecidableEq, Repr

/-- `StartEv()`. -/
def StartEv (now : Int) : LocalEvent := ⟨.started, -1, now, "", none⟩

/-- `StopEv()`. -/
def StopEv (now : Int) : LocalEvent := ⟨.stopped, -1, now, "", none⟩

/-- `CreateFileEv(inode, name, fd)`. -/
def CreateFileEv (inode : Int) (name : String) (fd : Int) (now : Int) : LocalEvent :=
  ⟨.create_file, inode, now, name, some fd⟩

/-- `CreateDirEv(inode, name, fd)`. -/
def CreateDirEv (inode : Int) (name : String) (fd : Int) (now : Int) : LocalEvent :=
  ⟨.create_dir, inode, now, name, some fd⟩

/-- `WriteEv(inode, name, fd)`. -/
def WriteEv (inode : Int) (name : String) (fd : Int) (now : Int) : LocalEvent :=
  ⟨.write, inode, now, name, some fd⟩

/-- `DeleteEv(inode, name, fd)`. -/
def DeleteEv (inode : Int) (name : String) (fd : Int) (now : Int) : LocalEvent :=
  ⟨.delete, inode, now, name, some fd⟩

/-- `RenameFileEv(inode, name, fd)`. -/
def RenameFileEv (inode : Int) (name : String) (fd : Int) (now : Int) : LocalEvent :=
  ⟨.rename_file, inode, now, name, some fd⟩

/-- `RenameDirEv(inode, name, fd)`. -/
def RenameDirEv (inode : Int) (name : String) (fd : Int) (now : Int) : LocalEvent :=
  ⟨.rename_dir, inode, now, name, some fd⟩

/-! ## Serialization (`dump_event` / `load_event`)

`dump_event` pickles `event._asdict()`, an ordered mapping from field name to
field value in declaration order; `load_event` unpickles and rebuilds the
tuple from `.values()` positionally.  The wire bytes are modelled by the
ordered association list itself (pickle round-trips it exactly). -/

/-- A Python value occurring in a serialized event dictionary. -/
inductive PyVal where
  | vtype (t : EventType)
  | vint (i : Int)
  | vtime (t : Int)
  | vstr (s : String)
  | vfd (o : Option Int)
deriving DecidableEq, Repr

/-- `dump_event(event) = dumps(event._asdict())`. -/
def dump_event (e : LocalEvent) : List (String × PyVal) :=
  [("type", .vtype e.type), ("inode", .vint e.inode), ("time", .vtime e.time),
   ("name", .vstr e.name), ("fd", .vfd e.fd)]

/-- `load_event(s) = LocalEvent._make(loads(s).values())`.
`_make` raises `TypeError` unless exactly five positional values arrive;
that failure case is the `none` result. -/
def load_event (l : List (String × PyVal)) : Option LocalEvent :=
  match l.map Prod.snd with
  | [.vtype t, .vint i, .vtime tm, .vstr n, .vfd f] => some ⟨t, i, tm, n, f⟩
  | _ => none

/-! ## Transport (`src/tangle/comm.py`) -/

/-- Python exceptions that the modelled code can raise. -/
inductive PyErr where
  | fileNotFound   -- FileNotFoundError
  | keyErr         -- KeyError
  | attrErr        -- AttributeError
  | typeErr        -- TypeError / ValueError on ill-typed state
  | assertErr      -- AssertionError
  | idxErr         -- IndexError
  | osErr          -- OSError (bad descriptor on fstat)
  | fuelErr        -- modelling artefact: recursion depth exhausted
deriving DecidableEq, Repr

deriving instance DecidableEq for Except

/-- One item of ancillary data on a socket message.  The payload is the
decoded descriptor array (byte packing of `array('i', ...)` is abstracted). -/
structure AncItem where
  level : Nat
  ctype : Nat
  payload : List Int
deriving DecidableEq, Repr

/-- `socket.SOL_SOCKET` (BSD value). -/
def SOL_SOCKET : Nat := 0xffff

/-- `socket.SCM_RIGHTS` (BSD value). -/
def SCM_RIGHTS : Nat := 1

/-- `send_event(sock, event)`: returns the framed message list and the
ancillary-data list handed to `sendmsg`.  `array('i', [None])` raises
`TypeError` when a descriptor-carrying event has no descriptor. -/
def send_event (e : LocalEvent) :
    Except PyErr (List (List (String × PyVal)) × List AncItem) :=
  if e.type ∈ [EventType.create_file, EventType.write,
               EventType.rename_file, EventType.rename_dir] then
    match e.fd with
    | none => .error .typeErr
    | some fd => .ok ([dump_event e], [⟨SOL_SOCKET, SCM_RIGHTS, [fd]⟩])
  else
    .ok ([dump_event e], [])

/-- The consumer-side receive path of `recv_event`, after the selector has
reported the socket readable and `recvmsg` has produced `data` and
`anc`.  `statOf` is `os.fstat(fd).st_ino`; `none` is a raised `OSError`.
The loop scans the ancillary items for the first `SCM_RIGHTS` tuple. -/
def recvLoop (statOf : Int → Option Int) (data : List (String × PyVal)) :
    List AncItem → Except PyErr (Option LocalEvent × Option Int)
  | [] => .ok (none, none)
  | a :: rest =>
    if a.level = SOL_SOCKET ∧ a.ctype = SCM_RIGHTS then
      match a.payload with
      | [] => .error .idxErr        -- fds[0] on an empty array
      | fd :: _ =>
        match load_event data with
        | none => .error .typeErr
        | some event =>
          match statOf fd with
          | none => .error .osErr
          | some ino =>
            if (ino : Int) = event.inode then
              -- `event._replace(fd=fd)` result is discarded by the code
              if event.type ∈ [EventType.create_file, EventType.rename_file,
                               EventType.write] then
                .ok (some event, some fd)   -- paired with os.fdopen(fd)
              else
                .ok (some event, none)
            else
              .error .assertErr           -- assert inode == event.inode
    else recvLoop statOf data rest

/-- `recv_event` on a received message: without ancillary data the parsed
event is returned unchecked; otherwise the `SCM_RIGHTS` scan runs. -/
def recv_event (statOf : Int → Option Int) (data : List (String × PyVal))
    (anc : List AncItem) : Except PyErr (Option LocalEvent × Option Int) :=
  if anc.length < 1 then
    match load_event data with
    | none => .error .typeErr
    | some e => .ok (some e, none)
  else
    recvLoop statOf data anc

/-- The first `SCM_RIGHTS` payload among the ancillary items, mirroring the
skip logic of the receive loop. -/
def firstRights : List AncItem → Option (List Int)
  | [] => none
  | a :: rest =>
    if a.level = SOL_SOCKET ∧ a.ctype = SCM_RIGHTS then some a.payload
    else firstRights rest

/-! ## Watcher state (`src/tangle/watcher.py`)

`FileState = namedtuple("FileState", ["fd", "name", "dirs"])` — a watched
regular file: descriptor, basename, parent-directory path (the field really
is called `dirs` in the source).

`DirState = namedtuple("DirState", ["fd", "name", "files", "dirs"])` — a
watched directory: descriptor, path, child file inodes, child dir inodes. -/

/-- A watched regular file. -/
structure FileState where
  fd : Nat
  name : String
  dirs : String
deriving DecidableEq, Repr

/-- A Python `set` of inodes, modelled as a duplicate-free list so that the
model stays kernel-computable; the list order stands for the (arbitrary but
fixed) order in which Python iterates the set. -/
abbrev InoSet := List Nat

/-- `set.add(i)`. -/
def sinsert (l : InoSet) (i : Nat) : InoSet :=
  if i ∈ l then l else l ++ [i]

/-- `a.difference(b)`, iterated in `a`'s order. -/
def sdiff (a b : InoSet) : InoSet :=
  a.filter (fun x => decide (x ∉ b))

/-- A watched directory. -/
structure DirState where
  fd : Nat
  name : String
  files : InoSet
  dirs : InoSet
deriving DecidableEq

/-- An `inode_map` entry: the Python code stores either namedtuple. -/
inductive Entry where
  | file (f : FileState)
  | dir (d : DirState)
deriving DecidableEq

/-- Field 0 of either namedtuple (`state.fd`, also `state[0]`). -/
def Entry.fd : Entry → Nat
  | .file f => f.fd
  | .dir d => d.fd

/-- Field 1 of either namedtuple (`state.name`). -/
def Entry.name : Entry → String
  | .file f => f.name
  | .dir d => d.name

/-- `state._replace(fd=fd, name=name)` (works on both namedtuples). -/
def Entry.withFdName : Entry → Nat → String → Entry
  | .file f, fd, n => .file { f with fd := fd, name := n }
  | .dir d, fd, n => .dir { d with fd := fd, name := n }

/-- Association list standing for a Python `dict` keyed by inode: lookup
finds the first (and, for a dict, only) binding. -/
def alookup {α : Type} : List (Nat × α) → Nat → Option α
  | [], _ => none
  | (k, w) :: rest, i => if k = i then some w else alookup rest i

/-- `m[i] = v` on the association list: updating an existing key keeps its
position (as a Python dict does); a new key is appended at the end. -/
def aset {α : Type} : List (Nat × α) → Nat → α → List (Nat × α)
  | [], i, v => [(i, v)]
  | (k, w) :: rest, i, v =>
    if k = i then (k, v) :: rest else (k, w) :: aset rest i v

/-- `del m[i]` on the association list (the callers guard on membership). -/
def adel {α : Type} : List (Nat × α) → Nat → List (Nat × α)
  | [], _ => []
  | (k, w) :: rest, i => if k = i then rest else (k, w) :: adel rest i

/-- An inode-keyed map of entries (`self.inode_map`). -/
abbrev InodeMap := List (Nat × Entry)

/-- A kevent as built by `Watcher.new_event` (and as delivered back by the
kernel: `ident` is the watched descriptor, `udata` the inode cookie). -/
structure KEvent where
  ident : Nat
  filter : Int
  flags : Nat
  fflags : Nat
  udata : Nat
deriving DecidableEq, Repr

/-- `select.KQ_NOTE_DELETE`. -/
def KQ_NOTE_DELETE : Nat := 0x1

/-- `select.KQ_NOTE_WRITE`. -/
def KQ_NOTE_WRITE : Nat := 0x2

/-- `select.KQ_NOTE_ATTRIB`. -/
def KQ_NOTE_ATTRIB : Nat := 0x8

/-- `select.KQ_NOTE_RENAME`. -/
def KQ_NOTE_RENAME : Nat := 0x20

/-- `Watcher.new_event(fd, inode)`: a vnode-filter registration with
`KQ_EV_ADD | KQ_EV_ENABLE | KQ_EV_CLEAR` and the four note flags, carrying
the inode as `udata`. -/
def new_event (fd inode : Nat) : KEvent :=
  ⟨fd, -4, 0x1 ||| 0x4 ||| 0x20, KQ_NOTE_RENAME ||| KQ_NOTE_WRITE |||
    KQ_NOTE_DELETE ||| KQ_NOTE_ATTRIB, inode⟩

/-- The mutable `Watcher` state touched by the modelled methods, plus the
explicit effect logs: `nextFd` is the next number `os.open` hands out and
`closed` logs every `os.close`. -/
structure WSt where
  inode_map : InodeMap
  changelist : List KEvent
  nextFd : Nat
  closed : List Nat
deriving DecidableEq

/-- `Watcher.register_dir(fd, dirname, inode, files, dirs)`. -/
def register_dir (st : WSt) (fd : Nat) (dirname : String) (inode : Nat)
    (files dirs : InoSet) : WSt :=
  { st with
    inode_map := aset st.inode_map inode (.dir ⟨fd, dirname, files, dirs⟩),
    changelist := st.changelist ++ [new_event fd inode] }

/-- `Watcher.register_file(fd, filename, inode, current_dir)`. -/
def register_file (st : WSt) (fd : Nat) (filename : String) (inode : Nat)
    (current_dir : String) : WSt :=
  { st with
    inode_map := aset st.inode_map inode (.file ⟨fd, filename, current_dir⟩),
    changelist := st.changelist ++ [new_event fd inode] }

/-- `Watcher.unregister(inode)`: when the inode is tracked, close its
descriptor, delete the entry and return the recorded name; otherwise fall
through and return `None`. -/
def unregister (st : WSt) (inode : Nat) : WSt × Option String :=
  match alookup st.inode_map inode with
  | none => (st, none)
  | some e =>
    ({ st with
        inode_map := adel st.inode_map inode,
        closed := st.closed ++ [e.fd] },
     some e.name)

/-- `Watcher.update_state(fd, name, inode)`: a no-op when the inode is not
tracked; otherwise close the old descriptor and queue a fresh registration
when the descriptor changed, then rewrite the entry with the given
descriptor and name. -/
def update_state (st : WSt) (fd : Nat) (name : String) (inode : Nat) : WSt :=
  match alookup st.inode_map inode with
  | none => st
  | some e =>
    let st1 := if fd ≠ e.fd then
        { st with closed := st.closed ++ [e.fd],
                  changelist := st.changelist ++ [new_event fd inode] }
      else st
    { st1 with inode_map := aset st1.inode_map inode (e.withFdName fd name) }

/-- `IGNORE_DIRS`. -/
def IGNORE_DIRS : List String := [".git", "CVS", ".svn", ".hg"]

/-- `Watcher.ignore_file(filename)`: skip names starting with a pattern in
`IGNORE_PATTERNS = {".#"}`. -/
def ignore_file (filename : String) : Bool :=
  [".#"].any (fun p => strStartsWith filename p)

/-! ## Filesystem observation

`process_dir` consumes the outside world through `os.fwalk` on a directory
descriptor and `fstat_by_name` on each listed child.  An observation
records, per directory inode, the listed child names together with what a
subsequent open-and-fstat of each child reports (`none` when the child has
vanished, i.e. `FileNotFoundError`).  `none` for a whole directory is
`FileNotFoundError` from `os.fwalk` itself. -/

/-- One observed directory listing. -/
structure DirListing where
  files : List (String × Option Nat)
  dirs : List (String × Option Nat)

/-- The filesystem as observed through directory descriptors, keyed by the
directory's inode. -/
abbrev FsObs := Nat → Option DirListing

/-- Remove the first child named `nm` (Python `list.remove`, guarded by
membership so a missing name is a no-op). -/
def eraseDirNamed (nm : String) :
    List (String × Option Nat) → List (String × Option Nat)
  | [] => []
  | x :: xs => if x.1 = nm then xs else x :: eraseDirNamed nm xs

/-- The `for i in IGNORE_DIRS: if i in dirs: dirs.remove(i)` loop. -/
def removeIgnoredDirs (l : List (String × Option Nat)) :
    List (String × Option Nat) :=
  IGNORE_DIRS.foldl (fun acc nm => eraseDirNamed nm acc) l

/-! ## Directory-content reconciliation (`Watcher.process_dir`) -/

/-- Accumulator of the two stats loops of `process_dir`: the evolving
state, the `file_stats` / `dir_stats` dict (`inode ↦ (recorded name, fd)`;
the `root` component stored by the files loop is never read) and the
`f_inodes` / `d_inodes` set. -/
structure ScanAcc where
  st : WSt
  stats : List (Nat × (String × Nat))
  inos : InoSet
deriving DecidableEq

/-- The shared body of one iteration of either stats loop: skip a child
whose name `ign` rejects or whose stat reports nothing; otherwise open a
fresh descriptor, switch to the already-tracked descriptor when the inode
is known (closing the fresh one), record the stats under the recorded name
`mk child-name`, and run `update_state`. -/
def scanStep (ign : String → Bool) (mk : String → String) (acc : ScanAcc)
    (c : String × Option Nat) : ScanAcc :=
  if ign c.1 then acc
  else
    match c.2 with
    | none => acc
    | some ino =>
      let fd0 := acc.st.nextFd
      let st0 := { acc.st with nextFd := acc.st.nextFd + 1 }
      match alookup st0.inode_map ino with
      | some e =>
        let st1 := { st0 with closed := st0.closed ++ [fd0] }
        { st := update_state st1 e.fd (mk c.1) ino,
          stats := aset acc.stats ino (mk c.1, e.fd),
          inos := sinsert acc.inos ino }
      | none =>
        { st := update_state st0 fd0 (mk c.1) ino,
          stats := aset acc.stats ino (mk c.1, fd0),
          inos := sinsert acc.inos ino }

/-- One iteration of the files loop: the ignore filter applies, the
recorded name is the bare child name, and a vanished child
(`FileNotFoundError` from `fstat_by_name`) is swallowed by the
`try/except`. -/
def filesStep : ScanAcc → String × Option Nat → ScanAcc :=
  scanStep ignore_file (fun nm => nm)

/-- One iteration of the dirs loop.  Unlike the files loop it has no
`try/except`: a vanished subdirectory raises `FileNotFoundError` out of
`process_dir`.  The recorded name is `os.path.join(dir_name, name)`. -/
def dirsStep (dir_name : String) (acc : ScanAcc) (c : String × Option Nat) :
    Except PyErr ScanAcc :=
  match c.2 with
  | none => .error .fileNotFound
  | some ino => .ok (scanStep (fun _ => false) (pjoin dir_name) acc (c.1, some ino))

/-- The dirs loop. -/
def dirsPhase (dir_name : String) :
    List (String × Option Nat) → ScanAcc → Except PyErr ScanAcc
  | [], acc => .ok acc
  | c :: rest, acc =>
    match dirsStep dir_name acc c with
    | .error e => .error e
    | .ok acc' => dirsPhase dir_name rest acc'

/-- The net-new-subdirectories loop: for each net-new dir inode (in the
order Python happens to iterate the set; modelled as ascending), look up its
stats, emit `create_dir`, register it, add it to the parent's child set, and
recurse via `recur` (the recursive `process_dir` call, whose summary return
value is discarded but whose state changes and exceptions persist). -/
def newDirsGo (recur : Nat → WSt → Except PyErr (WSt × List LocalEvent))
    (now : Int) (dirIno : Nat) (dir_stats : List (Nat × (String × Nat))) :
    List Nat → WSt → List LocalEvent → Except PyErr (WSt × List LocalEvent)
  | [], st, evs => .ok (st, evs)
  | i :: rest, st, evs =>
    match alookup dir_stats i with
    | none => .error .keyErr
    | some (nm, fd) =>
      match alookup (register_dir st fd nm i [] []).inode_map dirIno with
      | some (.dir dd) =>
        match recur i { register_dir st fd nm i [] [] with
            inode_map := aset (register_dir st fd nm i [] []).inode_map dirIno
              (.dir { dd with dirs := sinsert dd.dirs i }) } with
        | .error e => .error e
        | .ok (st3, evs') =>
          newDirsGo recur now dirIno dir_stats rest st3
            (evs ++ CreateDirEv i nm fd now :: evs')
      | some (.file _) => .error .attrErr
      | none => .error .keyErr

/-- The net-new-files loop: emit `create_file` only when the inode is not
yet tracked anywhere, then register the file under the scanned directory and
add it to the parent's child set. -/
def newFilesGo (now : Int) (dirIno : Nat) (dir_name : String)
    (file_stats : List (Nat × (String × Nat))) :
    List Nat → WSt → List LocalEvent → Except PyErr (WSt × List LocalEvent)
  | [], st, evs => .ok (st, evs)
  | i :: rest, st, evs =>
    match alookup file_stats i with
    | none => .error .keyErr
    | some (nm, fd) =>
      let evs1 := if alookup st.inode_map i = none then
          evs ++ [CreateFileEv i nm fd now]
        else evs
      let st1 := register_file st fd nm i dir_name
      match alookup st1.inode_map dirIno with
      | some (.dir dd) =>
        newFilesGo now dirIno dir_name file_stats rest
          { st1 with
            inode_map := aset st1.inode_map dirIno
              (.dir { dd with files := sinsert dd.files i }) }
          evs1
      | some (.file _) => .error .attrErr
      | none => .error .keyErr

/-- `removed_files` then the per-element `set.remove` loop: what is left of
the recorded child-file set after pruning the children no longer observed.
(The same function serves the dir side with the dir accumulator.) -/
def keptChildren (observed : InoSet) (recorded : InoSet) : InoSet :=
  (sdiff recorded observed).foldl List.erase recorded

/-- The net-new children: observed inodes not in the pruned recorded set. -/
def newChildren (observed : InoSet) (recorded : InoSet) : InoSet :=
  sdiff observed (keptChildren observed recorded)

/-- The lines of `process_dir` after the two stats loops: re-read the
entry (`KeyError` / `AttributeError` on ill-typed state), prune the removed
children from the parent's child sets, and run the new-dirs loop (with
`recur`, the recursive `process_dir` call) followed by the new-files
loop. -/
def processTail (recur : Nat → WSt → Except PyErr (WSt × List LocalEvent))
    (now : Int) (dirIno : Nat) (d0name : String) (fa : ScanAcc)
    (dres : Except PyErr ScanAcc) : Except PyErr (WSt × List LocalEvent) :=
  match dres with
  | .error e => .error e
  | .ok da =>
    match alookup da.st.inode_map dirIno with
    | some (.dir d1) =>
      match newDirsGo recur now dirIno da.stats (newChildren da.inos d1.dirs)
          { da.st with
            inode_map := aset da.st.inode_map dirIno
              (.dir { d1 with files := keptChildren fa.inos d1.files,
                              dirs := keptChildren da.inos d1.dirs }) }
          [] with
      | .error e => .error e
      | .ok (st3, evs3) =>
        newFilesGo now dirIno d0name fa.stats (newChildren fa.inos d1.files)
          st3 evs3
    | some (.file _) => .error .attrErr
    | none => .error .keyErr

/-- `Watcher.process_dir(dir_inode)`.

The phases, in source order: read the entry (its descriptor and name);
enumerate via `os.fwalk` (a `FileNotFoundError` here returns the empty
summary); drop ignored subdirectory names; the files loop; the dirs loop;
then `processTail` (removal, net-new children, the loops with recursion).
Emitted events are returned in order; the summary dicts returned by the
Python method are used by callers only for logging and are dropped.

Recursion is bounded by explicit fuel (`.fuelErr` is a modelling artefact:
the Python recursion just runs). -/
def process_dir (now : Int) (obs : FsObs) :
    Nat → Nat → WSt → Except PyErr (WSt × List LocalEvent)
  | 0, _, _ => .error .fuelErr
  | fuel + 1, dirIno, st =>
    match alookup st.inode_map dirIno with
    | none => .error .keyErr
    | some (.file _) => .error .attrErr
    | some (.dir d0) =>
      match obs dirIno with
      | none => .ok (st, [])
      | some L =>
        processTail (process_dir now obs fuel) now dirIno d0.name
          (L.files.foldl filesStep ⟨st, [], []⟩)
          (dirsPhase d0.name (removeIgnoredDirs L.dirs)
            ⟨(L.files.foldl filesStep ⟨st, [], []⟩).st, [], []⟩)

/-! ## Directory-rename reconciliation (`Watcher.rename_dir`)

`rename_dir` consumes the outside world through `os.fwalk(parent,
dir_fd=self.root_fd)` — modelled by `renL`, the subdirectory names listed
under a path (`none` when `next()` raises `FileNotFoundError`) — and
`self.inode_for(path, ...)` — modelled by `inodeOf` (`none` when the open
raises, which propagates: `inode_for` has no handler). -/

/-- The loop rewriting the files recorded under a renamed child directory:
`state._replace(dirs=os.path.join(parent_path, state.name))`.  Note the
source joins `parent_path` — the *grandparent's* new path — with the file's
own basename.  A `DirState` among the file inodes would have its set-valued
`dirs` field replaced by a string; that ill-typed state is an error here. -/
def filesRename (parent_path : String) :
    List Nat → InodeMap → Except PyErr InodeMap
  | [], m => .ok m
  | i :: rest, m =>
    match alookup m i with
    | none => .error .keyErr
    | some (.file f) =>
      filesRename parent_path rest
        (aset m i (.file { f with dirs := pjoin parent_path f.name }))
    | some (.dir _) => .error .typeErr

/-- The recursion of `rename_children` over the child-directory set
(ascending order stands for Python's set iteration). -/
def childDirsGo (recur : String → Nat → InodeMap → Except PyErr InodeMap)
    (new_name : String) : List Nat → InodeMap → Except PyErr InodeMap
  | [], m => .ok m
  | c :: rest, m =>
    match recur new_name c m with
    | .error e => .error e
    | .ok m' => childDirsGo recur new_name rest m'

/-- The inner `rename_children(parent_path, child_inode)` of `rename_dir`:
destructure the child's `DirState` (a `FileState` would fail to unpack into
four fields), rewrite its path to `join(parent_path, basename(old path))`,
rewrite its recorded files, and recurse into its recorded subdirectories.
Fuel bounds the recursion through the map. -/
def rename_children :
    Nat → String → Nat → InodeMap → Except PyErr InodeMap
  | 0, _, _, _ => .error .fuelErr
  | fuel + 1, parent_path, childIno, m =>
    match alookup m childIno with
    | none => .error .keyErr
    | some (.file _) => .error .typeErr
    | some (.dir d) =>
      let dir_name := (psplit d.name).2
      let new_name := pjoin parent_path dir_name
      let m1 := aset m childIno (.dir { d with name := new_name })
      match filesRename parent_path d.files m1 with
      | .error e => .error e
      | .ok m2 =>
        childDirsGo (rename_children fuel) new_name d.dirs m2

/-- The new-basename search of `rename_dir`: walk the parent's listed
subdirectories, stat each (`inode_for`; a raised `FileNotFoundError`
propagates) and remember `join(parent, d)` for the last one whose inode
matches.  `acc` starts as the empty string. -/
def findNewName (parent : String) (dirIno : Nat)
    (inodeOf : String → Option Nat) :
    List String → String → Except PyErr String
  | [], acc => .ok acc
  | d :: rest, acc =>
    match inodeOf (pjoin parent d) with
    | none => .error .fileNotFound
    | some ino =>
      findNewName parent dirIno inodeOf rest
        (if ino = dirIno then pjoin parent d else acc)

/-- `Watcher.rename_dir(dir_inode)`: find the directory's new basename by
listing its recorded parent, then — when a new name was found — run
`rename_children` over the recorded child directories (note: neither the
renamed directory's own entry nor its *direct* child files are rewritten).
Returns the rewritten map and the new name (`''` when not found).
Iterating the string-valued `dirs` field of a `FileState` entry would apply
`rename_children` to characters; that ill-typed state is an error here. -/
def rename_dir (renL : String → Option (List String))
    (inodeOf : String → Option Nat) (fuel : Nat)
    (m : InodeMap) (dirIno : Nat) : Except PyErr (InodeMap × String) :=
  match alookup m dirIno with
  | none => .error .keyErr
  | some ent =>
    let parent := pdirname ent.name
    match renL parent with
    | none => .error .fileNotFound
    | some ds =>
      match findNewName parent dirIno inodeOf ds "" with
      | .error e => .error e
      | .ok new_name =>
        if new_name ≠ "" then
          match ent with
          | .dir d =>
            match childDirsGo (rename_children fuel) new_name d.dirs m with
            | .error e => .error e
            | .ok m' => .ok (m', new_name)
          | .file _ => .error .typeErr
        else .ok (m, new_name)

/-! ## Kernel-notification handlers -/

/-- `Watcher.handle_dir_event(event)`.  The entry is read once up front
(`KeyError` when the inode is unknown).  The four sub-flag branches run
independently in source order: rename (guarded by `event.ident !=
self.root_fd`), delete, write (skipped when the delete branch just removed
the entry), attrib (trace only). -/
def handle_dir_event (now : Int) (obs : FsObs)
    (renL : String → Option (List String)) (inodeOf : String → Option Nat)
    (root_fd : Nat) (fuel : Nat) (st : WSt) (ev : KEvent) :
    Except PyErr (WSt × List LocalEvent) :=
  let inode := ev.udata
  match alookup st.inode_map inode with
  | none => .error .keyErr
  | some state =>
    let step1 : Except PyErr (WSt × List LocalEvent) :=
      if ev.fflags &&& KQ_NOTE_RENAME ≠ 0 then
        if ev.ident ≠ root_fd then
          match rename_dir renL inodeOf fuel st.inode_map inode with
          | .error e => .error e
          | .ok (m', new_name) =>
            .ok ({ st with inode_map := m' },
                 [RenameDirEv inode new_name state.fd now])
        else .ok (st, [])
      else .ok (st, [])
    match step1 with
    | .error e => .error e
    | .ok (st1, evs1) =>
      let (st2, evs2) :=
        if ev.fflags &&& KQ_NOTE_DELETE ≠ 0 then
          ((unregister st1 inode).1,
           evs1 ++ [DeleteEv inode state.name state.fd now])
        else (st1, evs1)
      if ev.fflags &&& KQ_NOTE_WRITE ≠ 0 then
        if (alookup st2.inode_map inode).isSome then
          match process_dir now obs fuel inode st2 with
          | .error e => .error e
          | .ok (st3, evs3) => .ok (st3, evs2 ++ evs3)
        else .ok (st2, evs2)
      else .ok (st2, evs2)

/-- `Watcher.handle_file_event(event)`.  The entry is read once
(`KeyError` when unknown; a `DirState` would make `os.path.join` choke on
its set-valued `dirs` field).  Branches in source order: rename, delete,
write, attrib. -/
def handle_file_event (now : Int) (st : WSt) (ev : KEvent) :
    Except PyErr (WSt × List LocalEvent) :=
  let inode := ev.udata
  match alookup st.inode_map inode with
  | none => .error .keyErr
  | some (.dir _) => .error .typeErr
  | some (.file f) =>
    let path := pjoin f.dirs f.name
    let evs1 := if ev.fflags &&& KQ_NOTE_RENAME ≠ 0 then
        [RenameFileEv inode path f.fd now]
      else []
    let (st2, evs2) :=
      if ev.fflags &&& KQ_NOTE_DELETE ≠ 0 then
        ((unregister st inode).1, evs1 ++ [DeleteEv inode f.name f.fd now])
      else (st, evs1)
    let evs3 := if ev.fflags &&& KQ_NOTE_WRITE ≠ 0 then
        evs2 ++ [WriteEv inode f.name f.fd now]
      else evs2
    .ok (st2, evs3)

/-! ## Derived observation data

Pure recompute of what the stats loops accumulate, used to state the
reconciliation lemmas. -/

/-- The inode set a stats loop accumulates over a listing (`f_inodes` /
`d_inodes`): every stat-bearing child whose name passes the filter, deduped
in first-seen order. -/
def scanInos (ign : String → Bool) : List (String × Option Nat) → InoSet → InoSet
  | [], s => s
  | c :: rest, s =>
    match c.2 with
    | none => scanInos ign rest s
    | some i => scanInos ign rest (if ign c.1 then s else sinsert s i)

/-- The raw (undeduplicated) inode occurrences a stats loop visits over a
listing: one per stat-bearing child whose name passes the filter. -/
def listInos (ign : String → Bool) (l : List (String × Option Nat)) : List Nat :=
  (l.filter (fun c => !ign c.1)).filterMap Prod.snd

/-- Every inode the `process_dir` call on `j` may touch, to the given
recursion depth: the directory itself, its observed file-child inodes, its
observed dir-child inodes and, recursively, everything under those. -/
def reachList (obs : FsObs) : Nat → Nat → List Nat
  | 0, j => [j]
  | fuel + 1, j =>
    j :: (match obs j with
      | none => []
      | some L =>
        listInos ignore_file L.files ++
        (listInos (fun _ => false) (removeIgnoredDirs L.dirs)).flatMap
          (reachList obs fuel))

/-! ## The two scan-phase accumulators of one `process_dir` call -/

/-- The accumulator produced by the files loop of `process_dir`. -/
def filesAcc (st : WSt) (L : DirListing) : ScanAcc :=
  L.files.foldl filesStep ⟨st, [], []⟩

/-- The accumulator produced by the dirs loop of `process_dir` (which the
source seeds with the state left by the files loop and fresh dicts). -/
def dirsAcc (st : WSt) (dnm : String) (L : DirListing) : ScanAcc :=
  (removeIgnoredDirs L.dirs).foldl (scanStep (fun _ => false) (pjoin dnm))
    ⟨(filesAcc st L).st, [], []⟩

/-- A concrete run of the C4 theorem: a root tracking nothing, with one
observed file child and one observed subdirectory child. -/
def c4St : WSt := ⟨[(1, .dir ⟨3, ".", [], []⟩)], [], 10, []⟩

/-- Observations for the C4 run. -/
def c4Obs : FsObs := fun j =>
  if j = 1 then some ⟨[("a", some 2)], [("b", some 5)]⟩ else none

/-- The state the first C4 pass leaves behind. -/
def c4StAfter : WSt :=
  ⟨[(1, .dir ⟨3, ".", [2], [5]⟩), (5, .dir ⟨11, "./b", [], []⟩),
    (2, .file ⟨10, "a", "."⟩)],
   [new_event 11 5, new_event 10 2], 12, []⟩

/-! ## Claim C1: directory-rename path rewriting (code bug)

Fixture: `root` path `"r"`; directory `r/sub` (inode 1, fd 10) holds the
file `f0` (inode 2) and the subdirectory `subsub` (inode 3), which holds
`junkfile` (inode 4).  On disk, `r/sub` has just been renamed to
`r/junkdir`, so listing `r` shows one subdirectory `junkdir` whose inode
is 1. -/

/-- The tracked state at the moment the rename notification arrives. -/
def rdMap : InodeMap :=
  [(1, .dir ⟨10, "r/sub", [2], [3]⟩),
   (2, .file ⟨20, "f0", "r/sub"⟩),
   (3, .dir ⟨30, "r/sub/subsub", [4], []⟩),
   (4, .file ⟨40, "junkfile", "r/sub/subsub"⟩)]

/-- What `os.fwalk` reports under each path after the on-disk rename. -/
def rdRenL : String → Option (List String) :=
  fun s => if s = "r" then some ["junkdir"] else none

/-- What `inode_for` reports for each path after the on-disk rename. -/
def rdInodeOf : String → Option Nat :=
  fun s => if s = "r/junkdir" then some 1 else none

/-! ## Claim C7: root-rename guard (code bug)

Fixture: the watcher was bootstrapped with `self.root_fd = 3`, but the root
directory's entry (inode 1, path `"."`) was registered on `os.dup(rootfd)`
= descriptor 4 — as `Watcher.run` does — so the kernel delivers the root's
own rename notification with `ident = 4`.  The guard `event.ident !=
self.root_fd` therefore passes and the rename branch runs `rename_dir` on
the root, which walks `os.path.dirname(".") = ""` and dies with
`FileNotFoundError` — instead of the specified skip (no reconciliation, no
`rename_dir` event). -/

/-- The bootstrap-shaped state: the root entry's descriptor is a `dup`,
distinct from `root_fd = 3`. -/
def rootSt : WSt := ⟨[(1, .dir ⟨4, ".", [], []⟩)], [], 30, []⟩

/-! ## Claim C8: `FileNotFoundError` during reconciliation -/

/-- Fixture for the C8 counterexample: directory inode 1 whose listing
shows a file child `x` and a subdirectory child `d`, both of which vanish
before they can be statted. -/
def c8St : WSt := ⟨[(1, .dir ⟨3, ".", [], []⟩)], [], 20, []⟩

/-- Observation for the C8 counterexample. -/
def c8Obs : FsObs :=
  fun i => if i = 1 then some ⟨[("x", none)], [("d", none)]⟩ else none

/-- The same filesystem observation with every vanished file child (one
whose stat raises `FileNotFoundError`) dropped from its listing. -/
def pruneObs (obs : FsObs) : FsObs :=
  fun i => (obs i).map (fun L => ⟨L.files.filter (fun c => c.2.isSome), L.dirs⟩)

/-! ## Claim C6: which creations are announced -/

/-- Fixture for the C6 counterexample: the scanned directory (inode 1)
shows one subdirectory child `d` whose inode 7 is *already tracked* in
`inode_map` (it was moved in from another watched directory, where it was
recorded as `old/d`). -/
def c6St : WSt :=
  ⟨[(1, .dir ⟨3, ".", [], []⟩), (7, .dir ⟨9, "old/d", [], []⟩)], [], 20, []⟩

/-- Observation for the C6 counterexample. -/
def c6Obs : FsObs :=
  fun i => if i = 1 then some ⟨[], [("d", some 7)]⟩
           else if i = 7 then some ⟨[], []⟩ else none

/-! ## Claim C2: event round-trip -/

/-- Claim C2.  Deserializing the serialization of any event record yields the
record back; in particular the `type`, `inode`, `time` and `name` fields are
preserved (as is the descriptor slot, which pickles as a plain value). -/
theorem c2_event_round_trip (e : LocalEvent) :
    load_event (dump_event e) = some e := rfl

/-! ## Claim C3: ancillary data accompanies exactly the descriptor events -/

/-- Claim C3.  Whenever `send_event` succeeds, the message carries exactly
one `SCM_RIGHTS` ancillary item holding the event's descriptor if and only
if the event type is `create_file`, `write`, `rename_file` or `rename_dir`;
for every other type the ancillary list is empty. -/
theorem c3_send_event_ancillary (e : LocalEvent)
    (msg : List (List (String × PyVal))) (anc : List AncItem)
    (h : send_event e = .ok (msg, anc)) :
    (e.type ∈ [EventType.create_file, EventType.write,
               EventType.rename_file, EventType.rename_dir] →
       ∃ fd, e.fd = some fd ∧ anc = [⟨SOL_SOCKET, SCM_RIGHTS, [fd]⟩]) ∧
    (e.type ∉ [EventType.create_file, EventType.write,
               EventType.rename_file, EventType.rename_dir] →
       anc = []) := by
  unfold send_event at h
  by_cases hm : e.type ∈ [EventType.create_file, EventType.write,
                          EventType.rename_file, EventType.rename_dir]
  · simp only [if_pos hm] at h
    cases hfd : e.fd with
    | none => rw [hfd] at h; cases h
    | some fd =>
      rw [hfd] at h
      refine ⟨fun _ => ⟨fd, rfl, ?_⟩, fun hn => absurd hm hn⟩
      cases h; rfl
  · simp only [if_neg hm] at h
    exact ⟨fun hmem => absurd hmem hm, fun _ => by cases h; rfl⟩

/-- Witness for C3 at concrete events: a `write` event with descriptor 7
carries exactly its descriptor; a `delete` event carries nothing. -/
theorem c3_send_event_ancillary_witness :
    (∃ fd, (WriteEv 5 "junk" 7 0).fd = some fd ∧
       [⟨SOL_SOCKET, SCM_RIGHTS, [7]⟩] = ([⟨SOL_SOCKET, SCM_RIGHTS, [fd]⟩] : List AncItem)) ∧
    ([] : List AncItem) = [] := by
  refine ⟨?_, ?_⟩
  · have h := c3_send_event_ancillary (WriteEv 5 "junk" 7 0)
      [dump_event (WriteEv 5 "junk" 7 0)] [⟨SOL_SOCKET, SCM_RIGHTS, [7]⟩] (by rfl)
    exact h.1 (by decide)
  · have h := c3_send_event_ancillary (DeleteEv 5 "junk" 7 0)
      [dump_event (DeleteEv 5 "junk" 7 0)] [] (by rfl)
    exact h.2 (by decide)

/-! ## Association-list and set lemmas -/

theorem alookup_aset_self {α : Type} :
    ∀ (m : List (Nat × α)) (i : Nat) (v : α), alookup (aset m i v) i = some v
  | [], i, v => by simp [aset, alookup]
  | (k, w) :: rest, i, v => by
    by_cases hk : k = i
    · simp [aset, alookup, hk]
    · simp only [aset, alookup, if_neg hk]
      exact alookup_aset_self rest i v

theorem alookup_aset_ne {α : Type} :
    ∀ (m : List (Nat × α)) (i : Nat) (v : α) (k : Nat), k ≠ i →
      alookup (aset m i v) k = alookup m k
  | [], i, v, k, h => by
    unfold aset alookup
    rw [if_neg (Ne.symm h)]
    rfl
  | (a, w) :: rest, i, v, k, h => by
    unfold aset
    by_cases hai : a = i
    · subst hai
      rw [if_pos rfl]
      unfold alookup
      rw [if_neg (Ne.symm h), if_neg (Ne.symm h)]
    · simp only [if_neg hai]
      unfold alookup
      by_cases hak : a = k
      · rw [if_pos hak, if_pos hak]
      · rw [if_neg hak, if_neg hak]
        exact alookup_aset_ne rest i v k h

theorem aset_lookup_self {α : Type} :
    ∀ (m : List (Nat × α)) (i : Nat) (v : α), alookup m i = some v →
      aset m i v = m
  | [], i, v, h => by cases h
  | (k, w) :: rest, i, v, h => by
    by_cases hk : k = i
    · unfold alookup at h
      rw [if_pos hk] at h
      cases h
      unfold aset
      rw [if_pos hk]
    · unfold alookup at h
      rw [if_neg hk] at h
      unfold aset
      rw [if_neg hk, aset_lookup_self rest i v h]

theorem mem_sinsert (l : InoSet) (i x : Nat) :
    x ∈ sinsert l i ↔ x ∈ l ∨ x = i := by
  unfold sinsert
  by_cases h : i ∈ l
  · rw [if_pos h]
    constructor
    · exact Or.inl
    · rintro (hx | rfl)
      · exact hx
      · exact h
  · rw [if_neg h]
    simp

theorem sinsert_nodup (l : InoSet) (i : Nat) (h : l.Nodup) :
    (sinsert l i).Nodup := by
  unfold sinsert
  by_cases hm : i ∈ l
  · rw [if_pos hm]; exact h
  · rw [if_neg hm]
    refine List.Nodup.append h (List.nodup_singleton i) ?_
    intro a ha hai
    rw [List.mem_singleton] at hai
    exact hm (hai ▸ ha)

theorem mem_sdiff (a b : InoSet) (x : Nat) :
    x ∈ sdiff a b ↔ x ∈ a ∧ x ∉ b := by
  unfold sdiff
  simp [List.mem_filter]

theorem sdiff_nil_of_subset (a b : InoSet) (h : ∀ x ∈ a, x ∈ b) :
    sdiff a b = [] := by
  unfold sdiff
  rw [List.filter_eq_nil_iff]
  intro x hx
  simpa using h x hx

theorem sdiff_nodup (a b : InoSet) (h : a.Nodup) : (sdiff a b).Nodup :=
  List.Nodup.filter _ h

/-- The per-element `remove` loop is `List.diff`. -/
theorem foldl_erase_eq_diff : ∀ (rem l : List Nat),
    rem.foldl List.erase l = l.diff rem
  | [], l => by simp [List.diff]
  | r :: rest, l => by
    rw [List.foldl_cons, foldl_erase_eq_diff rest (l.erase r), List.diff_cons]

/-! ## `Entry` and `update_state` lemmas -/

theorem Entry.withFdName_self (e : Entry) :
    e.withFdName e.fd e.name = e := by
  cases e <;> rfl

theorem Entry.fd_withFdName (e : Entry) (fd : Nat) (nm : String) :
    (e.withFdName fd nm).fd = fd := by
  cases e <;> rfl

theorem Entry.name_withFdName (e : Entry) (fd : Nat) (nm : String) :
    (e.withFdName fd nm).name = nm := by
  cases e <;> rfl

theorem update_state_untracked (st : WSt) (fd : Nat) (nm : String) (i : Nat)
    (h : alookup st.inode_map i = none) : update_state st fd nm i = st := by
  unfold update_state
  rw [h]

theorem update_state_same_fd (st : WSt) (nm : String) (i : Nat) (e : Entry)
    (h : alookup st.inode_map i = some e) :
    update_state st e.fd nm i =
      { st with inode_map := aset st.inode_map i (e.withFdName e.fd nm) } := by
  unfold update_state
  rw [h]
  simp

theorem update_state_map_ne (st : WSt) (fd : Nat) (nm : String) (i k : Nat)
    (h : k ≠ i) :
    alookup (update_state st fd nm i).inode_map k = alookup st.inode_map k := by
  unfold update_state
  cases he : alookup st.inode_map i with
  | none => rfl
  | some e =>
    by_cases hfd : fd ≠ e.fd
    · simp only [if_pos hfd]
      exact alookup_aset_ne _ i _ k h
    · simp only [if_neg hfd]
      exact alookup_aset_ne _ i _ k h

theorem update_state_map_self (st : WSt) (fd : Nat) (nm : String) (i : Nat)
    (e : Entry) (h : alookup st.inode_map i = some e) :
    alookup (update_state st fd nm i).inode_map i = some (e.withFdName fd nm) := by
  unfold update_state
  rw [h]
  by_cases hfd : fd ≠ e.fd
  · simp only [if_pos hfd]
    exact alookup_aset_self _ i _
  · simp only [if_neg hfd]
    exact alookup_aset_self _ i _

theorem update_state_changelist_same (st : WSt) (nm : String) (i : Nat)
    (e : Entry) (h : alookup st.inode_map i = some e) :
    (update_state st e.fd nm i).changelist = st.changelist := by
  unfold update_state
  rw [h]
  simp

/-! ## `scanStep` component lemmas -/

theorem scanStep_ignored (ign : String → Bool) (mk : String → String)
    (acc : ScanAcc) (c : String × Option Nat) (h : ign c.1 = true) :
    scanStep ign mk acc c = acc := by
  unfold scanStep
  rw [if_pos h]

theorem scanStep_map_ne (ign : String → Bool) (mk : String → String)
    (acc : ScanAcc) (c : String × Option Nat) (k : Nat)
    (h : ∀ i, c.2 = some i → ign c.1 = false → k ≠ i) :
    alookup (scanStep ign mk acc c).st.inode_map k =
      alookup acc.st.inode_map k := by
  unfold scanStep
  by_cases hig : ign c.1
  · rw [if_pos hig]
  · rw [if_neg hig]
    cases hc : c.2 with
    | none => rfl
    | some i =>
      have hk := h i hc (by simpa using hig)
      cases he : alookup acc.st.inode_map i with
      | some e =>
        simp only [he]
        exact update_state_map_ne _ _ _ _ _ hk
      | none =>
        simp only [he]
        exact update_state_map_ne _ _ _ _ _ hk

theorem scanStep_map_at (ign : String → Bool) (mk : String → String)
    (acc : ScanAcc) (f : String) (i : Nat) (hig : ign f = false) :
    alookup (scanStep ign mk acc (f, some i)).st.inode_map i =
      (alookup acc.st.inode_map i).map (fun e => e.withFdName e.fd (mk f)) := by
  unfold scanStep
  rw [if_neg (by simp [hig])]
  cases he : alookup acc.st.inode_map i with
  | some e =>
    simp only [he, Option.map_some']
    rw [update_state_map_self _ _ _ _ e]
    exact he
  | none =>
    simp only [he, Option.map_none']
    rw [update_state_untracked]
    · exact he
    · exact he

theorem scanStep_changelist (ign : String → Bool) (mk : String → String)
    (acc : ScanAcc) (c : String × Option Nat) :
    (scanStep ign mk acc c).st.changelist = acc.st.changelist := by
  unfold scanStep
  by_cases hig : ign c.1
  · rw [if_pos hig]
  · rw [if_neg hig]
    cases hc : c.2 with
    | none => rfl
    | some i =>
      cases he : alookup acc.st.inode_map i with
      | some e =>
        simp only [he]
        rw [update_state_changelist_same _ _ _ e]
        exact he
      | none =>
        simp only [he]
        rw [update_state_untracked]
        exact he

theorem scanStep_inos (ign : String → Bool) (mk : String → String)
    (acc : ScanAcc) (c : String × Option Nat) :
    (scanStep ign mk acc c).inos =
      match c.2 with
      | none => acc.inos
      | some i => if ign c.1 then acc.inos else sinsert acc.inos i := by
  unfold scanStep
  by_cases hig : ign c.1
  · rw [if_pos hig]
    cases c.2 <;> simp [hig]
  · rw [if_neg hig]
    cases hc : c.2 with
    | none => rfl
    | some i =>
      cases he : alookup acc.st.inode_map i with
      | some e => simp [he, hig]
      | none => simp [he, hig]

theorem scanStep_stats_ne (ign : String → Bool) (mk : String → String)
    (acc : ScanAcc) (c : String × Option Nat) (k : Nat)
    (h : ∀ i, c.2 = some i → ign c.1 = false → k ≠ i) :
    alookup (scanStep ign mk acc c).stats k = alookup acc.stats k := by
  unfold scanStep
  by_cases hig : ign c.1
  · rw [if_pos hig]
  · rw [if_neg hig]
    cases hc : c.2 with
    | none => rfl
    | some i =>
      cases he : alookup acc.st.inode_map i with
      | some e =>
        simp only [he]
        exact alookup_aset_ne _ _ _ _ (h i hc (by simpa using hig))
      | none =>
        simp only [he]
        exact alookup_aset_ne _ _ _ _ (h i hc (by simpa using hig))

theorem scanStep_stats_at (ign : String → Bool) (mk : String → String)
    (acc : ScanAcc) (f : String) (i : Nat) (hig : ign f = false) :
    ∃ fd, alookup (scanStep ign mk acc (f, some i)).stats i = some (mk f, fd) := by
  unfold scanStep
  rw [if_neg (by simp [hig])]
  cases he : alookup acc.st.inode_map i with
  | some e =>
    simp only [he]
    exact ⟨e.fd, alookup_aset_self _ _ _⟩
  | none =>
    simp only [he]
    exact ⟨acc.st.nextFd, alookup_aset_self _ _ _⟩

/-! ## Listing-level lemmas -/

theorem scanInos_nil (ign : String → Bool) (s : InoSet) :
    scanInos ign [] s = s := rfl

theorem scanInos_cons_none (ign : String → Bool) (f : String)
    (rest : List (String × Option Nat)) (s : InoSet) :
    scanInos ign ((f, none) :: rest) s = scanInos ign rest s := rfl

theorem scanInos_cons_some (ign : String → Bool) (f : String) (i : Nat)
    (rest : List (String × Option Nat)) (s : InoSet) :
    scanInos ign ((f, some i) :: rest) s =
      scanInos ign rest (if ign f then s else sinsert s i) := rfl

theorem mem_scanInos (ign : String → Bool) :
    ∀ (l : List (String × Option Nat)) (s : InoSet) (x : Nat),
    x ∈ scanInos ign l s ↔ x ∈ s ∨ ∃ f, (f, some x) ∈ l ∧ ign f = false
  | [], s, x => by simp [scanInos]
  | (f, os) :: rest, s, x => by
    cases os with
    | none =>
      rw [scanInos_cons_none, mem_scanInos ign rest s x]
      constructor
      · rintro (h | ⟨g, hg, hig⟩)
        · exact Or.inl h
        · exact Or.inr ⟨g, List.mem_cons_of_mem _ hg, hig⟩
      · rintro (h | ⟨g, hg, hig⟩)
        · exact Or.inl h
        · rcases List.mem_cons.1 hg with he | hg'
          · simp at he
          · exact Or.inr ⟨g, hg', hig⟩
    | some i =>
      rw [scanInos_cons_some, mem_scanInos ign rest _ x]
      by_cases hig : ign f
      · rw [if_pos hig]
        constructor
        · rintro (h | ⟨g, hg, hgf⟩)
          · exact Or.inl h
          · exact Or.inr ⟨g, List.mem_cons_of_mem _ hg, hgf⟩
        · rintro (h | ⟨g, hg, hgf⟩)
          · exact Or.inl h
          · rcases List.mem_cons.1 hg with he | hg'
            · injection he with h1 h2
              subst h1
              rw [hig] at hgf
              simp at hgf
            · exact Or.inr ⟨g, hg', hgf⟩
      · rw [if_neg hig, mem_sinsert]
        constructor
        · rintro ((h | rfl) | ⟨g, hg, hgf⟩)
          · exact Or.inl h
          · exact Or.inr ⟨f, List.mem_cons_self _ _, by simpa using hig⟩
          · exact Or.inr ⟨g, List.mem_cons_of_mem _ hg, hgf⟩
        · rintro (h | ⟨g, hg, hgf⟩)
          · exact Or.inl (Or.inl h)
          · rcases List.mem_cons.1 hg with he | hg'
            · injection he with h1 h2
              injection h2 with h2
              exact Or.inl (Or.inr h2)
            · exact Or.inr ⟨g, hg', hgf⟩

theorem scanInos_nodup (ign : String → Bool) :
    ∀ (l : List (String × Option Nat)) (s : InoSet), s.Nodup →
    (scanInos ign l s).Nodup
  | [], s, h => h
  | (f, os) :: rest, s, h => by
    cases os with
    | none =>
      rw [scanInos_cons_none]
      exact scanInos_nodup ign rest s h
    | some i =>
      rw [scanInos_cons_some]
      by_cases hig : ign f
      · rw [if_pos hig]
        exact scanInos_nodup ign rest s h
      · rw [if_neg hig]
        exact scanInos_nodup ign rest _ (sinsert_nodup s i h)

theorem mem_listInos (ign : String → Bool) (l : List (String × Option Nat))
    (x : Nat) :
    x ∈ listInos ign l ↔ ∃ f, (f, some x) ∈ l ∧ ign f = false := by
  unfold listInos
  rw [List.mem_filterMap]
  constructor
  · rintro ⟨⟨f, os⟩, hm, hos⟩
    rw [List.mem_filter] at hm
    cases hos
    exact ⟨f, hm.1, by simpa using hm.2⟩
  · rintro ⟨f, hm, hig⟩
    exact ⟨(f, some x), List.mem_filter.2 ⟨hm, by simpa using hig⟩, rfl⟩

theorem listInos_cons_skip (ign : String → Bool) (c : String × Option Nat)
    (rest : List (String × Option Nat)) (h : ign c.1 = true) :
    listInos ign (c :: rest) = listInos ign rest := by
  unfold listInos
  rw [List.filter_cons, if_neg (by simp [h])]

theorem listInos_cons_none (ign : String → Bool) (f : String)
    (rest : List (String × Option Nat)) :
    listInos ign ((f, none) :: rest) = listInos ign rest := by
  unfold listInos
  rw [List.filter_cons]
  by_cases hig : ign f
  · rw [if_neg (by simp [hig])]
  · rw [if_pos (by simp [hig]), List.filterMap_cons]

theorem listInos_cons_some (ign : String → Bool) (f : String) (i : Nat)
    (rest : List (String × Option Nat)) (h : ign f = false) :
    listInos ign ((f, some i) :: rest) = i :: listInos ign rest := by
  unfold listInos
  rw [List.filter_cons, if_pos (by simp [h]), List.filterMap_cons]

/-! ## Fold-level lemmas for the stats loops -/

theorem filesStep_def : filesStep = scanStep ignore_file (fun nm => nm) := rfl

theorem scanFold_map_ne (ign : String → Bool) (mk : String → String) :
    ∀ (l : List (String × Option Nat)) (acc : ScanAcc) (k : Nat),
    k ∉ listInos ign l →
    alookup (l.foldl (scanStep ign mk) acc).st.inode_map k =
      alookup acc.st.inode_map k
  | [], acc, k, h => rfl
  | c :: rest, acc, k, h => by
    rw [List.foldl_cons]
    have hrest : k ∉ listInos ign rest := by
      intro hk
      exact h ((mem_listInos ign (c :: rest) k).2
        (by
          obtain ⟨f, hm, hig⟩ := (mem_listInos ign rest k).1 hk
          exact ⟨f, List.mem_cons_of_mem _ hm, hig⟩))
    rw [scanFold_map_ne ign mk rest _ k hrest]
    exact scanStep_map_ne ign mk acc c k
      (fun i hci hig hki =>
        h ((mem_listInos ign (c :: rest) k).2
          ⟨c.1, by rw [hki, ← hci]; exact List.mem_cons_self _ _, hig⟩))

theorem scanFold_changelist (ign : String → Bool) (mk : String → String) :
    ∀ (l : List (String × Option Nat)) (acc : ScanAcc),
    (l.foldl (scanStep ign mk) acc).st.changelist = acc.st.changelist
  | [], acc => rfl
  | c :: rest, acc => by
    rw [List.foldl_cons, scanFold_changelist ign mk rest _,
      scanStep_changelist]

theorem scanFold_inos (ign : String → Bool) (mk : String → String) :
    ∀ (l : List (String × Option Nat)) (acc : ScanAcc),
    (l.foldl (scanStep ign mk) acc).inos = scanInos ign l acc.inos
  | [], acc => rfl
  | c :: rest, acc => by
    obtain ⟨f, os⟩ := c
    rw [List.foldl_cons, scanFold_inos ign mk rest _, scanStep_inos]
    cases os with
    | none => rw [scanInos_cons_none]
    | some i => rw [scanInos_cons_some]

theorem scanFold_stats_id (ign : String → Bool) (mk : String → String) :
    ∀ (l : List (String × Option Nat)) (acc : ScanAcc) (k : Nat),
    k ∉ listInos ign l →
    alookup (l.foldl (scanStep ign mk) acc).stats k = alookup acc.stats k
  | [], acc, k, h => rfl
  | c :: rest, acc, k, h => by
    rw [List.foldl_cons]
    have hrest : k ∉ listInos ign rest := by
      intro hk
      obtain ⟨f, hm, hig⟩ := (mem_listInos ign rest k).1 hk
      exact h ((mem_listInos ign (c :: rest) k).2
        ⟨f, List.mem_cons_of_mem _ hm, hig⟩)
    rw [scanFold_stats_id ign mk rest _ k hrest]
    exact scanStep_stats_ne ign mk acc c k
      (fun i hci hig hki =>
        h ((mem_listInos ign (c :: rest) k).2
          ⟨c.1, by rw [hki, ← hci]; exact List.mem_cons_self _ _, hig⟩))

theorem scanFold_map_at (ign : String → Bool) (mk : String → String) :
    ∀ (l : List (String × Option Nat)) (acc : ScanAcc) (f : String) (i : Nat),
    (f, some i) ∈ l → ign f = false → (listInos ign l).Nodup →
    alookup (l.foldl (scanStep ign mk) acc).st.inode_map i =
      (alookup acc.st.inode_map i).map (fun e => e.withFdName e.fd (mk f))
  | [], acc, f, i, hm, hig, hnd => absurd hm (List.not_mem_nil _)
  | c :: rest, acc, f, i, hm, hig, hnd => by
    rw [List.foldl_cons]
    rcases List.mem_cons.1 hm with he | hmem
    · -- the head is the observed child
      subst he
      have hlist := listInos_cons_some ign f i rest hig
      rw [hlist] at hnd
      have hirest : i ∉ listInos ign rest := (List.nodup_cons.1 hnd).1
      rw [scanFold_map_ne ign mk rest _ i hirest]
      exact scanStep_map_at ign mk acc f i hig
    · -- the observed child sits in the tail
      have hstep : alookup (scanStep ign mk acc c).st.inode_map i =
          alookup acc.st.inode_map i := by
        refine scanStep_map_ne ign mk acc c i ?_
        intro i' hci' hig' hii'
        subst hii'
        have hi' : i ∈ listInos ign rest :=
          (mem_listInos ign rest i).2 ⟨f, hmem, hig⟩
        have hc : c = (c.1, some i) := by
          cases c
          simpa using hci'
        rw [hc, listInos_cons_some ign c.1 i rest hig'] at hnd
        exact (List.nodup_cons.1 hnd).1 hi'
      have hndrest : (listInos ign rest).Nodup := by
        cases hc : c.2 with
        | none =>
          have hc' : c = (c.1, none) := by cases c; simpa using hc
          rw [hc', listInos_cons_none] at hnd
          exact hnd
        | some i' =>
          by_cases hig' : ign c.1
          · rw [listInos_cons_skip ign c rest (by simpa using hig')] at hnd
            exact hnd
          · have hc' : c = (c.1, some i') := by cases c; simpa using hc
            rw [hc', listInos_cons_some ign c.1 i' rest
              (by simpa using hig')] at hnd
            exact (List.nodup_cons.1 hnd).2
      rw [scanFold_map_at ign mk rest _ f i hmem hig hndrest, hstep]

theorem scanFold_stats_at (ign : String → Bool) (mk : String → String) :
    ∀ (l : List (String × Option Nat)) (acc : ScanAcc) (f : String) (i : Nat),
    (f, some i) ∈ l → ign f = false → (listInos ign l).Nodup →
    ∃ fd, alookup (l.foldl (scanStep ign mk) acc).stats i = some (mk f, fd)
  | [], acc, f, i, hm, hig, hnd => absurd hm (List.not_mem_nil _)
  | c :: rest, acc, f, i, hm, hig, hnd => by
    rw [List.foldl_cons]
    rcases List.mem_cons.1 hm with he | hmem
    · subst he
      have hlist := listInos_cons_some ign f i rest hig
      rw [hlist] at hnd
      have hirest : i ∉ listInos ign rest := (List.nodup_cons.1 hnd).1
      rw [scanFold_stats_id ign mk rest _ i hirest]
      exact scanStep_stats_at ign mk acc f i hig
    · have hndrest : (listInos ign rest).Nodup := by
        cases hc : c.2 with
        | none =>
          have hc' : c = (c.1, none) := by cases c; simpa using hc
          rw [hc', listInos_cons_none] at hnd
          exact hnd
        | some i' =>
          by_cases hig' : ign c.1
          · rw [listInos_cons_skip ign c rest (by simpa using hig')] at hnd
            exact hnd
          · have hc' : c = (c.1, some i') := by cases c; simpa using hc
            rw [hc', listInos_cons_some ign c.1 i' rest
              (by simpa using hig')] at hnd
            exact (List.nodup_cons.1 hnd).2
      exact scanFold_stats_at ign mk rest _ f i hmem hig hndrest

/-! ## The dirs loop in terms of the shared fold -/

theorem dirsPhase_eq_of_some (nm : String) :
    ∀ (l : List (String × Option Nat)) (acc : ScanAcc),
    (∀ c ∈ l, c.2.isSome = true) →
    dirsPhase nm l acc =
      .ok (l.foldl (scanStep (fun _ => false) (pjoin nm)) acc)
  | [], acc, h => rfl
  | c :: rest, acc, h => by
    obtain ⟨f, os⟩ := c
    cases os with
    | none =>
      have := h (f, none) (List.mem_cons_self _ _)
      simp at this
    | some i =>
      show dirsPhase nm ((f, some i) :: rest) acc = _
      rw [List.foldl_cons]
      exact dirsPhase_eq_of_some nm rest _
        (fun c' hc'' => h c' (List.mem_cons_of_mem _ hc''))

theorem dirsPhase_ok_elim (nm : String) :
    ∀ (l : List (String × Option Nat)) (acc : ScanAcc) (da : ScanAcc),
    dirsPhase nm l acc = .ok da →
    (∀ c ∈ l, c.2.isSome = true) ∧
      da = l.foldl (scanStep (fun _ => false) (pjoin nm)) acc
  | [], acc, da, h => by
    refine ⟨by simp, ?_⟩
    cases h
    rfl
  | c :: rest, acc, da, h => by
    obtain ⟨f, os⟩ := c
    cases os with
    | none =>
      simp [dirsPhase, dirsStep] at h
    | some i =>
      have h' : dirsPhase nm rest
          (scanStep (fun _ => false) (pjoin nm) acc (f, some i)) = .ok da := h
      have hrec := dirsPhase_ok_elim nm rest _ da h'
      constructor
      · intro c' hc''
        rcases List.mem_cons.1 hc'' with he | hm
        · subst he
          simp
        · exact hrec.1 c' hm
      · rw [List.foldl_cons]
        exact hrec.2

/-! ## Lemmas about the net-new-files loop -/

theorem newFilesGo_map_ne (now : Int) (dirIno : Nat) (dname : String)
    (stats : List (Nat × (String × Nat))) :
    ∀ (lst : List Nat) (st : WSt) (evs : List LocalEvent) (st' : WSt)
      (evs' : List LocalEvent) (k : Nat),
    newFilesGo now dirIno dname stats lst st evs = .ok (st', evs') →
    k ≠ dirIno → k ∉ lst →
    alookup st'.inode_map k = alookup st.inode_map k
  | [], st, evs, st', evs', k, hok, hkj, hkl => by
    cases hok
    rfl
  | i :: rest, st, evs, st', evs', k, hok, hkj, hkl => by
    unfold newFilesGo at hok
    cases hs : alookup stats i with
    | none =>
      rw [hs] at hok
      cases hok
    | some nmfd =>
      obtain ⟨nm, fd⟩ := nmfd
      rw [hs] at hok
      dsimp only at hok
      cases hd : alookup (register_file st fd nm i dname).inode_map dirIno with
      | none =>
        rw [hd] at hok
        cases hok
      | some e =>
        cases e with
        | file _ =>
          rw [hd] at hok
          cases hok
        | dir dd =>
          rw [hd] at hok
          have hki : k ≠ i := fun he => hkl (he ▸ List.mem_cons_self i rest)
          have hkrest : k ∉ rest := fun hr => hkl (List.mem_cons_of_mem _ hr)
          rw [newFilesGo_map_ne now dirIno dname stats rest _ _ st' evs' k hok
            hkj hkrest]
          rw [alookup_aset_ne _ _ _ _ hkj]
          exact alookup_aset_ne _ _ _ _ hki
  termination_by lst => lst.length

theorem newFilesGo_root (now : Int) (dirIno : Nat) (dname : String)
    (stats : List (Nat × (String × Nat))) :
    ∀ (lst : List Nat) (st : WSt) (evs : List LocalEvent) (st' : WSt)
      (evs' : List LocalEvent) (dd : DirState),
    newFilesGo now dirIno dname stats lst st evs = .ok (st', evs') →
    dirIno ∉ lst →
    alookup st.inode_map dirIno = some (.dir dd) →
    ∃ F, alookup st'.inode_map dirIno =
        some (.dir ⟨dd.fd, dd.name, F, dd.dirs⟩) ∧
      (∀ x, x ∈ F ↔ x ∈ dd.files ∨ x ∈ lst)
  | [], st, evs, st', evs', dd, hok, hjl, hent => by
    cases hok
    refine ⟨dd.files, ?_, by simp⟩
    simpa using hent
  | i :: rest, st, evs, st', evs', dd, hok, hjl, hent => by
    unfold newFilesGo at hok
    cases hs : alookup stats i with
    | none =>
      rw [hs] at hok
      cases hok
    | some nmfd =>
      obtain ⟨nm, fd⟩ := nmfd
      rw [hs] at hok
      dsimp only at hok
      have hij : dirIno ≠ i := fun he => hjl (he ▸ List.mem_cons_self i rest)
      have hreg : alookup (register_file st fd nm i dname).inode_map dirIno =
          some (.dir dd) := by
        unfold register_file
        rw [alookup_aset_ne _ _ _ _ hij]
        exact hent
      rw [hreg] at hok
      have hent2 : alookup
          (aset (register_file st fd nm i dname).inode_map dirIno
            (.dir { dd with files := sinsert dd.files i })) dirIno =
          some (.dir { dd with files := sinsert dd.files i }) :=
        alookup_aset_self _ _ _
      obtain ⟨F, hF, hFm⟩ := newFilesGo_root now dirIno dname stats rest _ _
        st' evs' { dd with files := sinsert dd.files i } hok
        (fun hr => hjl (List.mem_cons_of_mem _ hr)) hent2
      refine ⟨F, hF, ?_⟩
      intro x
      rw [hFm x]
      dsimp only
      rw [mem_sinsert]
      constructor
      · rintro ((hx | rfl) | hx)
        · exact Or.inl hx
        · exact Or.inr (List.mem_cons_self _ _)
        · exact Or.inr (List.mem_cons_of_mem _ hx)
      · rintro (hx | hx)
        · exact Or.inl (Or.inl hx)
        · rcases List.mem_cons.1 hx with rfl | hx'
          · exact Or.inl (Or.inr rfl)
          · exact Or.inr hx'
  termination_by lst => lst.length

theorem newFilesGo_member (now : Int) (dirIno : Nat) (dname : String)
    (stats : List (Nat × (String × Nat))) :
    ∀ (lst : List Nat) (st : WSt) (evs : List LocalEvent) (st' : WSt)
      (evs' : List LocalEvent) (i : Nat) (nm : String) (fdv : Nat),
    newFilesGo now dirIno dname stats lst st evs = .ok (st', evs') →
    lst.Nodup → dirIno ∉ lst → i ∈ lst →
    alookup stats i = some (nm, fdv) →
    alookup st'.inode_map i = some (.file ⟨fdv, nm, dname⟩)
  | [], st, evs, st', evs', i, nm, fdv, hok, hnd, hjl, hm, hs =>
    absurd hm (List.not_mem_nil _)
  | i0 :: rest, st, evs, st', evs', i, nm, fdv, hok, hnd, hjl, hm, hs => by
    unfold newFilesGo at hok
    cases hs0 : alookup stats i0 with
    | none =>
      rw [hs0] at hok
      cases hok
    | some nmfd =>
      obtain ⟨nm0, fd0⟩ := nmfd
      rw [hs0] at hok
      dsimp only at hok
      cases hd : alookup (register_file st fd0 nm0 i0 dname).inode_map dirIno with
      | none =>
        rw [hd] at hok
        cases hok
      | some e =>
        cases e with
        | file _ =>
          rw [hd] at hok
          cases hok
        | dir dd =>
          rw [hd] at hok
          rcases List.mem_cons.1 hm with rfl | hmem
          · -- the head is the target: its registration survives the rest
            have hirest : i ∉ rest := (List.nodup_cons.1 hnd).1
            have hij : i ≠ dirIno :=
              fun he => hjl (he ▸ List.mem_cons_self i rest)
            rw [newFilesGo_map_ne now dirIno dname stats rest _ _ st' evs' i
              hok hij hirest]
            rw [alookup_aset_ne _ _ _ _ hij]
            rw [hs0] at hs
            cases hs
            unfold register_file
            exact alookup_aset_self _ _ _
          · exact newFilesGo_member now dirIno dname stats rest _ _ st' evs'
              i nm fdv hok (List.nodup_cons.1 hnd).2
              (fun hr => hjl (List.mem_cons_of_mem _ hr)) hmem hs
  termination_by lst => lst.length

theorem newFilesGo_events (now : Int) (dirIno : Nat) (dname : String)
    (stats : List (Nat × (String × Nat))) :
    ∀ (lst : List Nat) (st : WSt) (evs : List LocalEvent) (st' : WSt)
      (evs' : List LocalEvent),
    newFilesGo now dirIno dname stats lst st evs = .ok (st', evs') →
    lst.Nodup → dirIno ∉ lst →
    ∀ x : Nat,
    ((∃ e ∈ evs', e.type = EventType.create_file ∧ e.inode = (x : Int)) ↔
      ((∃ e ∈ evs, e.type = EventType.create_file ∧ e.inode = (x : Int)) ∨
       (x ∈ lst ∧ alookup st.inode_map x = none)))
  | [], st, evs, st', evs', hok, hnd, hjl, x => by
    cases hok
    simp
  | i :: rest, st, evs, st', evs', hok, hnd, hjl, x => by
    unfold newFilesGo at hok
    cases hs : alookup stats i with
    | none =>
      rw [hs] at hok
      cases hok
    | some nmfd =>
      obtain ⟨nm, fd⟩ := nmfd
      rw [hs] at hok
      dsimp only at hok
      cases hd : alookup (register_file st fd nm i dname).inode_map dirIno with
      | none =>
        rw [hd] at hok
        cases hok
      | some e =>
        cases e with
        | file _ =>
          rw [hd] at hok
          cases hok
        | dir dd =>
          rw [hd] at hok
          have hrec := newFilesGo_events now dirIno dname stats rest _ _
            st' evs' hok (List.nodup_cons.1 hnd).2
            (fun hr => hjl (List.mem_cons_of_mem _ hr)) x
          rw [hrec]
          dsimp only
          -- the state seen by the tail agrees with `st` off {i, dirIno}
          have hmap : x ∈ rest →
              alookup (aset (register_file st fd nm i dname).inode_map dirIno
                (Entry.dir { dd with files := sinsert dd.files i })) x =
                alookup st.inode_map x := by
            intro hy
            have hyi : x ≠ i := fun he => (List.nodup_cons.1 hnd).1 (he ▸ hy)
            have hyj : x ≠ dirIno :=
              fun he => hjl (he ▸ List.mem_cons_of_mem _ hy)
            rw [alookup_aset_ne _ _ _ _ hyj]
            rw [show (register_file st fd nm i dname).inode_map =
              aset st.inode_map i (Entry.file ⟨fd, nm, dname⟩) from rfl]
            exact alookup_aset_ne _ _ _ _ hyi
          constructor
          · rintro (he | ⟨hxr, hxn⟩)
            · by_cases hin : alookup st.inode_map i = none
              · rw [if_pos hin] at he
                obtain ⟨e, hem, het, hei⟩ := he
                rcases List.mem_append.1 hem with hem' | hem'
                · exact Or.inl ⟨e, hem', het, hei⟩
                · rw [List.mem_singleton] at hem'
                  subst hem'
                  have h2 : (i : Int) = (x : Int) := hei
                  have h3 : i = x := by exact_mod_cast h2
                  subst h3
                  exact Or.inr ⟨List.mem_cons_self i rest, hin⟩
              · rw [if_neg hin] at he
                exact Or.inl he
            · exact Or.inr ⟨List.mem_cons_of_mem _ hxr,
                by rw [← hmap hxr]; exact hxn⟩
          · rintro (he | ⟨hxl, hxn⟩)
            · left
              by_cases hin : alookup st.inode_map i = none
              · rw [if_pos hin]
                obtain ⟨e, hem, het, hei⟩ := he
                exact ⟨e, List.mem_append.2 (Or.inl hem), het, hei⟩
              · rw [if_neg hin]
                exact he
            · rcases List.mem_cons.1 hxl with rfl | hxr
              · left
                rw [if_pos hxn]
                exact ⟨CreateFileEv x nm fd now,
                  List.mem_append.2 (Or.inr (List.mem_singleton.2 rfl)),
                  rfl, rfl⟩
              · exact Or.inr ⟨hxr, by rw [hmap hxr]; exact hxn⟩
  termination_by lst => lst.length

/-! ## Lemmas about the net-new-dirs loop -/

theorem newDirsGo_map_ne (recur : Nat → WSt → Except PyErr (WSt × List LocalEvent))
    (now : Int) (dirIno : Nat) (stats : List (Nat × (String × Nat))) :
    ∀ (lst : List Nat) (st : WSt) (evs : List LocalEvent) (st' : WSt)
      (evs' : List LocalEvent) (k : Nat),
    newDirsGo recur now dirIno stats lst st evs = .ok (st', evs') →
    k ≠ dirIno → k ∉ lst →
    (∀ i ∈ lst, ∀ σ σ' e', recur i σ = .ok (σ', e') →
       alookup σ'.inode_map k = alookup σ.inode_map k) →
    alookup st'.inode_map k = alookup st.inode_map k
  | [], st, evs, st', evs', k, hok, hkj, hkl, hrec => by
    cases hok
    rfl
  | i :: rest, st, evs, st', evs', k, hok, hkj, hkl, hrec => by
    unfold newDirsGo at hok
    split at hok
    · cases hok
    · rename_i nm fd heq
      split at hok
      · rename_i dd hd
        split at hok
        · cases hok
        · rename_i p hr
          have hki : k ≠ i := fun he => hkl (he ▸ List.mem_cons_self i rest)
          have hkrest : k ∉ rest := fun hr' => hkl (List.mem_cons_of_mem _ hr')
          rw [newDirsGo_map_ne recur now dirIno stats rest _ _ st' evs' k hok
            hkj hkrest (fun i' hi' => hrec i' (List.mem_cons_of_mem _ hi'))]
          rw [hrec i (List.mem_cons_self i rest) _ _ _ hr]
          rw [alookup_aset_ne _ _ _ _ hkj]
          rw [show (register_dir st fd nm i [] []).inode_map =
            aset st.inode_map i (Entry.dir ⟨fd, nm, [], []⟩) from rfl]
          exact alookup_aset_ne _ _ _ _ hki
      · cases hok
      · cases hok
  termination_by lst => lst.length

theorem newDirsGo_root (recur : Nat → WSt → Except PyErr (WSt × List LocalEvent))
    (now : Int) (dirIno : Nat) (stats : List (Nat × (String × Nat))) :
    ∀ (lst : List Nat) (st : WSt) (evs : List LocalEvent) (st' : WSt)
      (evs' : List LocalEvent) (dd : DirState),
    newDirsGo recur now dirIno stats lst st evs = .ok (st', evs') →
    dirIno ∉ lst →
    (∀ i ∈ lst, ∀ σ σ' e', recur i σ = .ok (σ', e') →
       alookup σ'.inode_map dirIno = alookup σ.inode_map dirIno) →
    alookup st.inode_map dirIno = some (.dir dd) →
    ∃ D, alookup st'.inode_map dirIno =
        some (.dir ⟨dd.fd, dd.name, dd.files, D⟩) ∧
      (∀ x, x ∈ D ↔ x ∈ dd.dirs ∨ x ∈ lst)
  | [], st, evs, st', evs', dd, hok, hjl, hrec, hent => by
    cases hok
    refine ⟨dd.dirs, ?_, by simp⟩
    simpa using hent
  | i :: rest, st, evs, st', evs', dd, hok, hjl, hrec, hent => by
    unfold newDirsGo at hok
    split at hok
    · cases hok
    · rename_i nm fd heq
      split at hok
      · rename_i dd0 hd
        split at hok
        · cases hok
        · rename_i st3 evs3 hr
          have hij : dirIno ≠ i :=
            fun he => hjl (he ▸ List.mem_cons_self i rest)
          have hreg : alookup (register_dir st fd nm i [] []).inode_map dirIno =
              some (.dir dd) := by
            rw [show (register_dir st fd nm i [] []).inode_map =
              aset st.inode_map i (Entry.dir ⟨fd, nm, [], []⟩) from rfl]
            rw [alookup_aset_ne _ _ _ _ hij]
            exact hent
          have hdd : dd0 = dd := by
            have h2 := hreg.symm.trans hd
            injection h2 with h3
            injection h3 with h4
            exact h4.symm
          subst hdd
          have hst3 : alookup st3.inode_map dirIno =
              some (.dir { dd0 with dirs := sinsert dd0.dirs i }) := by
            rw [hrec i (List.mem_cons_self i rest) _ _ _ hr]
            exact alookup_aset_self _ _ _
          obtain ⟨D, hD, hDm⟩ := newDirsGo_root recur now dirIno stats rest
            _ _ st' evs' { dd0 with dirs := sinsert dd0.dirs i } hok
            (fun hrm => hjl (List.mem_cons_of_mem _ hrm))
            (fun i' hi' => hrec i' (List.mem_cons_of_mem _ hi')) hst3
          refine ⟨D, hD, ?_⟩
          intro x
          rw [hDm x]
          dsimp only
          rw [mem_sinsert]
          constructor
          · rintro ((hx | rfl) | hx)
            · exact Or.inl hx
            · exact Or.inr (List.mem_cons_self _ _)
            · exact Or.inr (List.mem_cons_of_mem _ hx)
          · rintro (hx | hx)
            · exact Or.inl (Or.inl hx)
            · rcases List.mem_cons.1 hx with rfl | hx'
              · exact Or.inl (Or.inr rfl)
              · exact Or.inr hx'
      · cases hok
      · cases hok
  termination_by lst => lst.length

theorem newDirsGo_member (recur : Nat → WSt → Except PyErr (WSt × List LocalEvent))
    (now : Int) (dirIno : Nat) (stats : List (Nat × (String × Nat))) :
    ∀ (lst : List Nat) (st : WSt) (evs : List LocalEvent) (st' : WSt)
      (evs' : List LocalEvent) (i : Nat) (nm : String) (fdv : Nat),
    newDirsGo recur now dirIno stats lst st evs = .ok (st', evs') →
    lst.Nodup → dirIno ∉ lst → i ∈ lst →
    alookup stats i = some (nm, fdv) →
    (∀ i' ∈ lst, ∀ σ σ' e', recur i' σ = .ok (σ', e') →
       ∀ k, k ≠ i' → (k ∈ lst ∨ k = dirIno) →
       alookup σ'.inode_map k = alookup σ.inode_map k) →
    (∀ i' ∈ lst, ∀ σ σ' e' d, recur i' σ = .ok (σ', e') →
       alookup σ.inode_map i' = some (.dir d) →
       ∃ F D, alookup σ'.inode_map i' = some (.dir ⟨d.fd, d.name, F, D⟩)) →
    ∃ F D, alookup st'.inode_map i = some (.dir ⟨fdv, nm, F, D⟩)
  | [], st, evs, st', evs', i, nm, fdv, hok, hnd, hjl, hm, hs, hpres, hroot =>
    absurd hm (List.not_mem_nil _)
  | i0 :: rest, st, evs, st', evs', i, nm, fdv, hok, hnd, hjl, hm, hs, hpres,
      hroot => by
    unfold newDirsGo at hok
    split at hok
    · cases hok
    · rename_i nm0 fd0 heq
      split at hok
      · rename_i dd0 hd
        split at hok
        · cases hok
        · rename_i p hr
          rcases List.mem_cons.1 hm with rfl | hmem
          · -- the head is the target
            rw [heq] at hs
            injection hs with hs2
            injection hs2 with hs3 hs4
            subst nm0
            subst fd0
            have hij : dirIno ≠ i :=
              fun he => hjl (he ▸ List.mem_cons_self i rest)
            have hst2 : alookup
                (aset (register_dir st fdv nm i [] []).inode_map dirIno
                  (Entry.dir { dd0 with dirs := sinsert dd0.dirs i })) i =
                some (.dir ⟨fdv, nm, [], []⟩) := by
              rw [alookup_aset_ne _ _ _ _ (Ne.symm hij)]
              rw [show (register_dir st fdv nm i [] []).inode_map =
                aset st.inode_map i (Entry.dir ⟨fdv, nm, [], []⟩) from rfl]
              exact alookup_aset_self _ _ _
            obtain ⟨F, D, hFD⟩ := hroot i (List.mem_cons_self i rest) _ _ _
              ⟨fdv, nm, [], []⟩ (by rw [← hr]) hst2
            have hirest : i ∉ rest := (List.nodup_cons.1 hnd).1
            rw [newDirsGo_map_ne recur now dirIno stats rest _ _ st' evs' i
              hok (fun he => hjl (he ▸ List.mem_cons_self i rest)) hirest
              (fun i' hi' σ σ' e' hr' =>
                hpres i' (List.mem_cons_of_mem _ hi') σ σ' e' hr' i
                  (fun he => hirest (he ▸ hi'))
                  (Or.inl (List.mem_cons_self i rest)))]
            exact ⟨F, D, hFD⟩
          · exact newDirsGo_member recur now dirIno stats rest _ _ st' evs'
              i nm fdv hok (List.nodup_cons.1 hnd).2
              (fun hrm => hjl (List.mem_cons_of_mem _ hrm)) hmem hs
              (fun i' hi' σ σ' e' hr' k hk hkin =>
                hpres i' (List.mem_cons_of_mem _ hi') σ σ' e' hr' k hk
                  (hkin.elim (fun h2 => Or.inl (List.mem_cons_of_mem _ h2))
                    Or.inr))
              (fun i' hi' => hroot i' (List.mem_cons_of_mem _ hi'))
      · cases hok
      · cases hok
  termination_by lst => lst.length

theorem newDirsGo_evs_mono (recur : Nat → WSt → Except PyErr (WSt × List LocalEvent))
    (now : Int) (dirIno : Nat) (stats : List (Nat × (String × Nat))) :
    ∀ (lst : List Nat) (st : WSt) (evs : List LocalEvent) (st' : WSt)
      (evs' : List LocalEvent),
    newDirsGo recur now dirIno stats lst st evs = .ok (st', evs') →
    ∀ e ∈ evs, e ∈ evs'
  | [], st, evs, st', evs', hok => by
    cases hok
    exact fun e he => he
  | i :: rest, st, evs, st', evs', hok => by
    unfold newDirsGo at hok
    split at hok
    · cases hok
    · rename_i nm fd heq
      split at hok
      · rename_i dd0 hd
        split at hok
        · cases hok
        · rename_i p hr
          intro e he
          exact newDirsGo_evs_mono recur now dirIno stats rest _ _ st' evs'
            hok e (List.mem_append.2 (Or.inl he))
      · cases hok
      · cases hok
  termination_by lst => lst.length

theorem newDirsGo_events_super (recur : Nat → WSt → Except PyErr (WSt × List LocalEvent))
    (now : Int) (dirIno : Nat) (stats : List (Nat × (String × Nat))) :
    ∀ (lst : List Nat) (st : WSt) (evs : List LocalEvent) (st' : WSt)
      (evs' : List LocalEvent),
    newDirsGo recur now dirIno stats lst st evs = .ok (st', evs') →
    ∀ i ∈ lst, ∃ e ∈ evs', e.type = EventType.create_dir ∧ e.inode = (i : Int)
  | [], st, evs, st', evs', hok, i, hm => absurd hm (List.not_mem_nil _)
  | i0 :: rest, st, evs, st', evs', hok, i, hm => by
    unfold newDirsGo at hok
    split at hok
    · cases hok
    · rename_i nm fd heq
      split at hok
      · rename_i dd0 hd
        split at hok
        · cases hok
        · rename_i p hr
          rcases List.mem_cons.1 hm with rfl | hmem
          · refine ⟨CreateDirEv i nm fd now, ?_, rfl, rfl⟩
            exact newDirsGo_evs_mono recur now dirIno stats rest _ _ st' evs'
              hok _ (List.mem_append.2 (Or.inr (List.mem_cons_self _ _)))
          · exact newDirsGo_events_super recur now dirIno stats rest _ _
              st' evs' hok i hmem
      · cases hok
      · cases hok
  termination_by lst => lst.length

theorem newDirsGo_events_sub (recur : Nat → WSt → Except PyErr (WSt × List LocalEvent))
    (now : Int) (dirIno : Nat) (stats : List (Nat × (String × Nat)))
    (P : Nat → LocalEvent → Prop) :
    ∀ (lst : List Nat) (st : WSt) (evs : List LocalEvent) (st' : WSt)
      (evs' : List LocalEvent),
    newDirsGo recur now dirIno stats lst st evs = .ok (st', evs') →
    (∀ i ∈ lst, ∀ σ σ' e', recur i σ = .ok (σ', e') → ∀ ev ∈ e', P i ev) →
    ∀ ev ∈ evs', ev ∈ evs ∨
      (∃ i ∈ lst, ∃ nm fd, alookup stats i = some (nm, fd) ∧
        ev = CreateDirEv i nm fd now) ∨
      (∃ i ∈ lst, P i ev)
  | [], st, evs, st', evs', hok, hrecEv, ev, hm => by
    cases hok
    exact Or.inl hm
  | i0 :: rest, st, evs, st', evs', hok, hrecEv, ev, hm => by
    unfold newDirsGo at hok
    split at hok
    · cases hok
    · rename_i nm fd heq
      split at hok
      · rename_i dd0 hd
        split at hok
        · cases hok
        · rename_i p hr
          have hrec := newDirsGo_events_sub recur now dirIno stats P rest
            _ _ st' evs' hok
            (fun i' hi' => hrecEv i' (List.mem_cons_of_mem _ hi')) ev hm
          rcases hrec with hin | hnew | hp
          · rcases List.mem_append.1 hin with hin' | hin'
            · exact Or.inl hin'
            · rcases List.mem_cons.1 hin' with rfl | hin''
              · exact Or.inr (Or.inl ⟨i0, List.mem_cons_self _ _, nm, fd,
                  heq, rfl⟩)
              · exact Or.inr (Or.inr ⟨i0, List.mem_cons_self _ _,
                  hrecEv i0 (List.mem_cons_self _ _) _ _ _ (by rw [← hr])
                    ev hin''⟩)
          · obtain ⟨i', hi', nm', fd', hst', hev⟩ := hnew
            exact Or.inr (Or.inl ⟨i', List.mem_cons_of_mem _ hi', nm', fd',
              hst', hev⟩)
          · obtain ⟨i', hi', hp'⟩ := hp
            exact Or.inr (Or.inr ⟨i', List.mem_cons_of_mem _ hi', hp'⟩)
      · cases hok
      · cases hok
  termination_by lst => lst.length

theorem newFilesGo_events_sub (now : Int) (dirIno : Nat) (dname : String)
    (stats : List (Nat × (String × Nat))) :
    ∀ (lst : List Nat) (st : WSt) (evs : List LocalEvent) (st' : WSt)
      (evs' : List LocalEvent),
    newFilesGo now dirIno dname stats lst st evs = .ok (st', evs') →
    ∀ ev ∈ evs', ev ∈ evs ∨
      (∃ i ∈ lst, ∃ nm fd, alookup stats i = some (nm, fd) ∧
        ev = CreateFileEv i nm fd now)
  | [], st, evs, st', evs', hok, ev, hm => by
    cases hok
    exact Or.inl hm
  | i0 :: rest, st, evs, st', evs', hok, ev, hm => by
    unfold newFilesGo at hok
    split at hok
    · cases hok
    · rename_i nm fd heq
      dsimp only at hok
      split at hok
      · rename_i dd0 hd
        have hrec := newFilesGo_events_sub now dirIno dname stats rest
          _ _ st' evs' hok ev hm
        rcases hrec with hin | hnew
        · by_cases hguard : alookup st.inode_map i0 = none
          · rw [if_pos hguard] at hin
            rcases List.mem_append.1 hin with hin' | hin'
            · exact Or.inl hin'
            · rw [List.mem_singleton] at hin'
              exact Or.inr ⟨i0, List.mem_cons_self _ _, nm, fd, heq, hin'⟩
          · rw [if_neg hguard] at hin
            exact Or.inl hin
        · obtain ⟨i', hi', nm', fd', hst', hev⟩ := hnew
          exact Or.inr ⟨i', List.mem_cons_of_mem _ hi', nm', fd', hst', hev⟩
      · cases hok
      · cases hok
  termination_by lst => lst.length

/-! ## Reach-set helpers -/

theorem reach_self (obs : FsObs) : ∀ (fuel j : Nat), j ∈ reachList obs fuel j
  | 0, j => List.mem_singleton.2 rfl
  | fuel + 1, j => by
    unfold reachList
    exact List.mem_cons_self _ _

theorem reachList_succ_none (obs : FsObs) (fuel j : Nat) (h : obs j = none) :
    reachList obs (fuel + 1) j = [j] := by
  unfold reachList
  rw [h]

theorem reachList_succ_some (obs : FsObs) (fuel j : Nat) (L : DirListing)
    (h : obs j = some L) :
    reachList obs (fuel + 1) j =
      j :: (listInos ignore_file L.files ++
        (listInos (fun _ => false) (removeIgnoredDirs L.dirs)).flatMap
          (reachList obs fuel)) := by
  unfold reachList
  rw [h]

/-- A self-membered family with a duplicate-free union has a duplicate-free
index list. -/
theorem nodup_of_flatMap_self (f : Nat → List Nat) :
    ∀ (l : List Nat), (∀ x ∈ l, x ∈ f x) → (l.flatMap f).Nodup → l.Nodup
  | [], _, _ => List.nodup_nil
  | a :: rest, hself, hnd => by
    rw [List.flatMap_cons] at hnd
    have hdisj := List.disjoint_of_nodup_append hnd
    refine List.nodup_cons.2 ⟨?_, ?_⟩
    · intro ha
      exact hdisj (hself a (List.mem_cons_self _ _))
        (List.mem_flatMap.2 ⟨a, ha, hself a (List.mem_cons_of_mem _ ha)⟩)
    · exact nodup_of_flatMap_self f rest
        (fun x hx => hself x (List.mem_cons_of_mem _ hx))
        (List.Nodup.of_append_right hnd)

/-- The structural consequences of a duplicate-free reach set over an
observed listing. -/
theorem reach_nodup_parts (obs : FsObs) (fuel j : Nat) (L : DirListing)
    (hobs : obs j = some L)
    (hnd : (reachList obs (fuel + 1) j).Nodup) :
    j ∉ listInos ignore_file L.files ∧
    j ∉ listInos (fun _ => false) (removeIgnoredDirs L.dirs) ∧
    (listInos ignore_file L.files).Nodup ∧
    (listInos (fun _ => false) (removeIgnoredDirs L.dirs)).Nodup ∧
    (∀ i ∈ listInos (fun _ => false) (removeIgnoredDirs L.dirs),
       (reachList obs fuel i).Nodup) ∧
    (∀ i ∈ listInos (fun _ => false) (removeIgnoredDirs L.dirs),
       j ∉ reachList obs fuel i) ∧
    (∀ x ∈ listInos ignore_file L.files,
       ∀ i ∈ listInos (fun _ => false) (removeIgnoredDirs L.dirs),
       x ∉ reachList obs fuel i) ∧
    (∀ i ∈ listInos (fun _ => false) (removeIgnoredDirs L.dirs),
       ∀ i' ∈ listInos (fun _ => false) (removeIgnoredDirs L.dirs),
       i' ≠ i → i' ∉ reachList obs fuel i) ∧
    (∀ x ∈ listInos ignore_file L.files,
       x ∉ listInos (fun _ => false) (removeIgnoredDirs L.dirs)) := by
  rw [reachList_succ_some obs fuel j L hobs] at hnd
  obtain ⟨hjt, htl⟩ := List.nodup_cons.1 hnd
  have hjf : j ∉ listInos ignore_file L.files :=
    fun h => hjt (List.mem_append.2 (Or.inl h))
  have hjfm : j ∉ (listInos (fun _ => false)
      (removeIgnoredDirs L.dirs)).flatMap (reachList obs fuel) :=
    fun h => hjt (List.mem_append.2 (Or.inr h))
  have hfn : (listInos ignore_file L.files).Nodup :=
    List.Nodup.of_append_left htl
  have hflat : ((listInos (fun _ => false)
      (removeIgnoredDirs L.dirs)).flatMap (reachList obs fuel)).Nodup :=
    List.Nodup.of_append_right htl
  have hdisj := List.disjoint_of_nodup_append htl
  have hdn : (listInos (fun _ => false) (removeIgnoredDirs L.dirs)).Nodup :=
    nodup_of_flatMap_self _ _ (fun x _ => reach_self obs fuel x) hflat
  have hsub : ∀ i ∈ listInos (fun _ => false) (removeIgnoredDirs L.dirs),
      (reachList obs fuel i).Nodup := by
    intro i hi
    exact ((List.nodup_flatMap.1 hflat).1) i hi
  have hpair := (List.nodup_flatMap.1 hflat).2
  refine ⟨hjf, ?_, hfn, hdn, hsub, ?_, ?_, ?_, ?_⟩
  · intro hjd
    exact hjfm (List.mem_flatMap.2 ⟨j, hjd, reach_self obs fuel j⟩)
  · intro i hi hji
    exact hjfm (List.mem_flatMap.2 ⟨i, hi, hji⟩)
  · intro x hx i hi hxi
    exact hdisj hx (List.mem_flatMap.2 ⟨i, hi, hxi⟩)
  · intro i hi i' hi' hne hmem
    have hd : List.Disjoint (reachList obs fuel i') (reachList obs fuel i) :=
      List.Pairwise.forall (fun a b (h : List.Disjoint _ _) => h.symm)
        hpair hi' hi hne
    exact hd (reach_self obs fuel i') hmem
  · intro x hx hxd
    exact hdisj hx (List.mem_flatMap.2 ⟨x, hxd, reach_self obs fuel x⟩)

/-- Membership in the observed child sets transfers to the raw occurrence
list. -/
theorem mem_scanInos_to_listInos (ign : String → Bool)
    (l : List (String × Option Nat)) (x : Nat) (h : x ∈ scanInos ign l []) :
    x ∈ listInos ign l := by
  rcases (mem_scanInos ign l [] x).1 h with h' | h'
  · cases h'
  · exact (mem_listInos ign l x).2 h'

theorem mem_listInos_to_scanInos (ign : String → Bool)
    (l : List (String × Option Nat)) (x : Nat) (h : x ∈ listInos ign l) :
    x ∈ scanInos ign l [] :=
  (mem_scanInos ign l [] x).2 (Or.inr ((mem_listInos ign l x).1 h))

/-! ## The frame property of `process_dir` -/

theorem process_dir_map_frame (now : Int) (obs : FsObs) :
    ∀ (fuel j : Nat) (st st' : WSt) (evs : List LocalEvent) (k : Nat),
    process_dir now obs fuel j st = .ok (st', evs) →
    k ∉ reachList obs fuel j →
    alookup st'.inode_map k = alookup st.inode_map k
  | 0, j, st, st', evs, k, hok, hk => by cases hok
  | fuel + 1, j, st, st', evs, k, hok, hk => by
    unfold process_dir at hok
    split at hok
    · cases hok
    · cases hok
    · rename_i d0 hent
      split at hok
      · rename_i hobs
        cases hok
        rfl
      · rename_i L hobs
        have hkj : k ≠ j := by
          intro he
          subst he
          exact hk (reach_self obs (fuel + 1) k)
        have hkf : k ∉ listInos ignore_file L.files := by
          intro hmem
          rw [reachList_succ_some obs fuel j L hobs] at hk
          exact hk (List.mem_cons_of_mem _ (List.mem_append.2 (Or.inl hmem)))
        have hkd : ∀ i ∈ listInos (fun _ => false) (removeIgnoredDirs L.dirs),
            k ∉ reachList obs fuel i := by
          intro i hi hki
          rw [reachList_succ_some obs fuel j L hobs] at hk
          exact hk (List.mem_cons_of_mem _ (List.mem_append.2
            (Or.inr (List.mem_flatMap.2 ⟨i, hi, hki⟩))))
        have hkdl : k ∉ listInos (fun _ => false) (removeIgnoredDirs L.dirs) :=
          fun hmem => hkd k hmem (reach_self obs fuel k)
        unfold processTail at hok
        split at hok
        · cases hok
        · rename_i da hda
          split at hok
          · rename_i d1 hd1
            split at hok
            · cases hok
            · rename_i st3 evs3 hnd3
              -- unpack the dirs phase
              obtain ⟨hall, hdaeq⟩ := dirsPhase_ok_elim d0.name
                (removeIgnoredDirs L.dirs) _ da hda
              -- chain the frame through the phases and loops
              have h1 : alookup (L.files.foldl filesStep
                  ⟨st, [], []⟩).st.inode_map k = alookup st.inode_map k :=
                scanFold_map_ne ignore_file (fun nm => nm) L.files _ k hkf
              have h2 : alookup da.st.inode_map k = alookup st.inode_map k := by
                rw [hdaeq]
                rw [scanFold_map_ne (fun _ => false) (pjoin d0.name)
                  (removeIgnoredDirs L.dirs) _ k hkdl]
                exact h1
              have hsubd : ∀ i ∈ newChildren da.inos d1.dirs,
                  i ∈ listInos (fun _ => false) (removeIgnoredDirs L.dirs) := by
                intro i hi
                have : i ∈ da.inos := ((mem_sdiff _ _ i).1 hi).1
                rw [hdaeq] at this
                rw [scanFold_inos] at this
                exact mem_scanInos_to_listInos _ _ _ this
              have h3 : alookup st3.inode_map k =
                  alookup da.st.inode_map k := by
                rw [newDirsGo_map_ne _ now j da.stats _ _ _ st3 evs3 k hnd3
                  hkj (fun hmem => hkdl (hsubd k hmem))
                  (fun i hi σ σ' e' hok' =>
                    process_dir_map_frame now obs fuel i σ σ' e' k hok'
                      (hkd i (hsubd i hi)))]
                exact alookup_aset_ne _ _ _ _ hkj
              have hsubf : ∀ i ∈ newChildren
                  (L.files.foldl filesStep ⟨st, [], []⟩).inos d1.files,
                  i ∈ listInos ignore_file L.files := by
                intro i hi
                have h4 : i ∈ scanInos ignore_file L.files
                    ((⟨st, [], []⟩ : ScanAcc)).inos := by
                  rw [← scanFold_inos ignore_file (fun nm => nm) L.files
                    ⟨st, [], []⟩]
                  exact ((mem_sdiff _ _ i).1 hi).1
                exact mem_scanInos_to_listInos _ _ _ h4
              rw [newFilesGo_map_ne now j d0.name _ _ _ _ st' evs k hok hkj
                (fun hmem => hkf (hsubf k hmem))]
              rw [h3, h2]
          · cases hok
          · cases hok

/-! ## Pruning lemmas -/

theorem mem_keptChildren (observed recorded : InoSet) (h : recorded.Nodup)
    (x : Nat) :
    x ∈ keptChildren observed recorded ↔ x ∈ recorded ∧ x ∈ observed := by
  unfold keptChildren
  rw [foldl_erase_eq_diff, List.Nodup.mem_diff_iff h, mem_sdiff]
  constructor
  · rintro ⟨hr, hn⟩
    refine ⟨hr, ?_⟩
    by_contra hno
    exact hn ⟨hr, hno⟩
  · rintro ⟨hr, ho⟩
    exact ⟨hr, fun hc => hc.2 ho⟩

theorem keptChildren_nodup (observed recorded : InoSet) (h : recorded.Nodup) :
    (keptChildren observed recorded).Nodup := by
  unfold keptChildren
  rw [foldl_erase_eq_diff]
  exact List.Nodup.diff h

theorem mem_newChildren (observed recorded : InoSet) (h : recorded.Nodup)
    (x : Nat) :
    x ∈ newChildren observed recorded ↔ x ∈ observed ∧
      ¬(x ∈ recorded ∧ x ∈ observed) := by
  unfold newChildren
  rw [mem_sdiff, mem_keptChildren observed recorded h]

theorem newChildren_nodup (observed recorded : InoSet) (h : observed.Nodup) :
    (newChildren observed recorded).Nodup :=
  sdiff_nodup _ _ h

theorem keptChildren_self (observed recorded : InoSet)
    (h : ∀ x ∈ recorded, x ∈ observed) :
    keptChildren observed recorded = recorded := by
  unfold keptChildren
  rw [sdiff_nil_of_subset _ _ h]
  rfl

theorem newChildren_nil (observed recorded : InoSet)
    (hsub : ∀ x ∈ recorded, x ∈ observed)
    (hsup : ∀ x ∈ observed, x ∈ recorded) :
    newChildren observed recorded = [] := by
  unfold newChildren
  rw [keptChildren_self observed recorded hsub]
  exact sdiff_nil_of_subset _ _ hsup

/-! ## Entry preservation at the scanned directory across one call -/

theorem process_dir_root_entry (now : Int) (obs : FsObs) :
    ∀ (fuel j : Nat) (st st' : WSt) (evs : List LocalEvent) (d : DirState),
    process_dir now obs fuel j st = .ok (st', evs) →
    (reachList obs fuel j).Nodup →
    alookup st.inode_map j = some (.dir d) →
    ∃ F D, alookup st'.inode_map j = some (.dir ⟨d.fd, d.name, F, D⟩)
  | 0, j, st, st', evs, d, hok, hnd, hent => by cases hok
  | fuel + 1, j, st, st', evs, d, hok, hnd, hent => by
    unfold process_dir at hok
    split at hok
    · cases hok
    · cases hok
    · rename_i d0 hent'
      have hd0 : d0 = d := by
        have h2 := hent'.symm.trans hent
        simp only [Option.some.injEq, Entry.dir.injEq] at h2
        exact h2
      subst d
      split at hok
      · rename_i hobs
        cases hok
        exact ⟨d0.files, d0.dirs, by simpa using hent⟩
      · rename_i L hobs
        obtain ⟨hjf, hjd, hfnd, hdnd, hsubnd, hjre, hfre, hppre, hfdd⟩ :=
          reach_nodup_parts obs fuel j L hobs hnd
        unfold processTail at hok
        split at hok
        · cases hok
        · rename_i da hda
          split at hok
          · rename_i d1 hd1
            split at hok
            · cases hok
            · rename_i st3 evs3 hnd3
              obtain ⟨hall, hdaeq⟩ := dirsPhase_ok_elim d0.name
                (removeIgnoredDirs L.dirs) _ da hda
              -- the phases leave the scanned directory's entry alone
              have h1 : alookup da.st.inode_map j = some (.dir d0) := by
                rw [hdaeq]
                rw [scanFold_map_ne (fun _ => false) (pjoin d0.name)
                  (removeIgnoredDirs L.dirs) _ j hjd]
                show alookup
                  (L.files.foldl filesStep ⟨st, [], []⟩).st.inode_map j = _
                rw [filesStep_def]
                rw [scanFold_map_ne ignore_file (fun nm => nm) L.files _ j hjf]
                exact hent
              have hd10 : d1 = d0 := by
                have h2 := hd1.symm.trans h1
                simp only [Option.some.injEq, Entry.dir.injEq] at h2
                exact h2
              subst d1
              have hsubd : ∀ i ∈ newChildren da.inos d0.dirs,
                  i ∈ listInos (fun _ => false) (removeIgnoredDirs L.dirs) := by
                intro i hi
                have h5 : i ∈ da.inos := ((mem_sdiff _ _ i).1 hi).1
                rw [hdaeq] at h5
                rw [scanFold_inos] at h5
                exact mem_scanInos_to_listInos _ _ _ h5
              -- the new-dirs loop extends the child-dir set, keeping the rest
              have hst2 : alookup (aset da.st.inode_map j
                  (Entry.dir { d0 with
                    files := keptChildren
                      (L.files.foldl filesStep ⟨st, [], []⟩).inos d0.files,
                    dirs := keptChildren da.inos d0.dirs })) j =
                  some (.dir { d0 with
                    files := keptChildren
                      (L.files.foldl filesStep ⟨st, [], []⟩).inos d0.files,
                    dirs := keptChildren da.inos d0.dirs }) :=
                alookup_aset_self _ _ _
              obtain ⟨D, hD, hDm⟩ := newDirsGo_root _ now j da.stats _ _ _
                st3 evs3 _ hnd3 (fun hmem => hjd (hsubd j hmem))
                (fun i hi σ σ' e' hok' =>
                  process_dir_map_frame now obs fuel i σ σ' e' j hok'
                    (hjre i (hsubd i hi)))
                hst2
              have hsubf : ∀ i ∈ newChildren
                  (L.files.foldl filesStep ⟨st, [], []⟩).inos d0.files,
                  i ∈ listInos ignore_file L.files := by
                intro i hi
                have h4 : i ∈ scanInos ignore_file L.files
                    ((⟨st, [], []⟩ : ScanAcc)).inos := by
                  rw [← scanFold_inos ignore_file (fun nm => nm) L.files
                    ⟨st, [], []⟩]
                  exact ((mem_sdiff _ _ i).1 hi).1
                exact mem_scanInos_to_listInos _ _ _ h4
              obtain ⟨F, hF, hFm⟩ := newFilesGo_root now j d0.name _ _ _ _
                st' evs _ hok (fun hmem => hjf (hsubf j hmem)) hD
              exact ⟨F, D, hF⟩
          · cases hok
          · cases hok

/-! ## Further loop lemmas -/

theorem newFilesGo_evs_mono (now : Int) (dirIno : Nat) (dname : String)
    (stats : List (Nat × (String × Nat))) :
    ∀ (lst : List Nat) (st : WSt) (evs : List LocalEvent) (st' : WSt)
      (evs' : List LocalEvent),
    newFilesGo now dirIno dname stats lst st evs = .ok (st', evs') →
    ∀ e ∈ evs, e ∈ evs'
  | [], st, evs, st', evs', hok => by
    cases hok
    exact fun e he => he
  | i :: rest, st, evs, st', evs', hok => by
    unfold newFilesGo at hok
    cases hs : alookup stats i with
    | none =>
      rw [hs] at hok
      cases hok
    | some nmfd =>
      obtain ⟨nm, fd⟩ := nmfd
      rw [hs] at hok
      dsimp only at hok
      cases hd : alookup (register_file st fd nm i dname).inode_map dirIno with
      | none =>
        rw [hd] at hok
        cases hok
      | some e0 =>
        cases e0 with
        | file _ =>
          rw [hd] at hok
          cases hok
        | dir dd =>
          rw [hd] at hok
          intro e he
          refine newFilesGo_evs_mono now dirIno dname stats rest _ _ st' evs'
            hok e ?_
          by_cases hg : alookup st.inode_map i = none
          · rw [if_pos hg]
            exact List.mem_append.2 (Or.inl he)
          · rw [if_neg hg]
            exact he
  termination_by lst => lst.length

/-- One scan iteration leaves the map untouched when the child is either
untracked (the `update_state` call falls through) or already recorded under
the name the loop writes back. -/
theorem scanStep_map_id (ign : String → Bool) (mk : String → String)
    (acc : ScanAcc) (c : String × Option Nat)
    (h : ∀ i, c.2 = some i → ign c.1 = false →
      alookup acc.st.inode_map i = none ∨
        ∃ e, alookup acc.st.inode_map i = some e ∧ e.name = mk c.1) :
    (scanStep ign mk acc c).st.inode_map = acc.st.inode_map := by
  unfold scanStep
  by_cases hig : ign c.1
  · rw [if_pos hig]
  · rw [if_neg hig]
    cases hc : c.2 with
    | none => rfl
    | some i =>
      rcases h i hc (by simpa using hig) with hnone | ⟨e, he, hnm⟩
      · simp only [hnone]
        rw [update_state_untracked]
        exact hnone
      · simp only [he]
        rw [update_state_same_fd _ _ _ e]
        · show aset acc.st.inode_map i (e.withFdName e.fd (mk c.1)) =
            acc.st.inode_map
          rw [← hnm, Entry.withFdName_self]
          exact aset_lookup_self _ _ _ he
        · exact he

theorem scanFold_map_id (ign : String → Bool) (mk : String → String) :
    ∀ (l : List (String × Option Nat)) (acc : ScanAcc),
    (∀ f i, (f, some i) ∈ l → ign f = false →
      alookup acc.st.inode_map i = none ∨
        ∃ e, alookup acc.st.inode_map i = some e ∧ e.name = mk f) →
    (l.foldl (scanStep ign mk) acc).st.inode_map = acc.st.inode_map
  | [], acc, h => rfl
  | c :: rest, acc, h => by
    rw [List.foldl_cons]
    have hstep : (scanStep ign mk acc c).st.inode_map = acc.st.inode_map :=
      scanStep_map_id ign mk acc c (fun i hci hig =>
        h c.1 i (by rw [← hci]; exact List.mem_cons_self _ _) hig)
    rw [scanFold_map_id ign mk rest _ (fun f i hm hig => by
      rw [hstep]
      exact h f i (List.mem_cons_of_mem _ hm) hig)]
    exact hstep

/-- Unfolding one successor step of `process_dir` at a tracked directory
with an observable listing. -/
theorem process_dir_eq (now : Int) (obs : FsObs) (fuel j : Nat) (st : WSt)
    (d : DirState) (L : DirListing)
    (hent : alookup st.inode_map j = some (.dir d))
    (hobs : obs j = some L) :
    process_dir now obs (fuel + 1) j st =
      processTail (process_dir now obs fuel) now j d.name (filesAcc st L)
        (dirsPhase d.name (removeIgnoredDirs L.dirs)
          ⟨(filesAcc st L).st, [], []⟩) := by
  unfold process_dir
  rw [hent, hobs]
  rfl

/-- When nothing is removed and nothing is new, the tail of `process_dir`
rewrites the scanned directory's entry with itself and emits nothing. -/
theorem processTail_id (recur : Nat → WSt → Except PyErr (WSt × List LocalEvent))
    (now : Int) (dirIno : Nat) (nm : String) (fa da : ScanAcc) (d : DirState)
    (hent : alookup da.st.inode_map dirIno = some (.dir d))
    (hkF : keptChildren fa.inos d.files = d.files)
    (hnF : newChildren fa.inos d.files = [])
    (hkD : keptChildren da.inos d.dirs = d.dirs)
    (hnD : newChildren da.inos d.dirs = []) :
    processTail recur now dirIno nm fa (.ok da) =
      .ok ({ da.st with inode_map := aset da.st.inode_map dirIno (.dir d) },
        []) := by
  unfold processTail
  simp only [hent]
  rw [hkF, hkD, hnD, hnF]
  simp only [newDirsGo]
  simp only [newFilesGo]

/-- One successful `process_dir` call decomposes into the two scan folds
followed by the new-dirs and new-files loops. -/
theorem process_dir_decomp (now : Int) (obs : FsObs) (fuel j : Nat)
    (st st' : WSt) (evs : List LocalEvent) (d : DirState) (L : DirListing)
    (hok : process_dir now obs (fuel + 1) j st = .ok (st', evs))
    (hnd : (reachList obs (fuel + 1) j).Nodup)
    (hent : alookup st.inode_map j = some (.dir d))
    (hobs : obs j = some L) :
    ∃ (st3 : WSt) (evs3 : List LocalEvent),
      (∀ c ∈ removeIgnoredDirs L.dirs, c.2.isSome = true) ∧
      newDirsGo (process_dir now obs fuel) now j
          (dirsAcc st d.name L).stats
          (newChildren (dirsAcc st d.name L).inos d.dirs)
          { (dirsAcc st d.name L).st with
            inode_map := aset (dirsAcc st d.name L).st.inode_map j
              (.dir { d with
                files := keptChildren (filesAcc st L).inos d.files,
                dirs := keptChildren (dirsAcc st d.name L).inos d.dirs }) }
          [] = .ok (st3, evs3) ∧
      newFilesGo now j d.name (filesAcc st L).stats
          (newChildren (filesAcc st L).inos d.files) st3 evs3 =
        .ok (st', evs) := by
  obtain ⟨hjf, hjd, hfnd, hdnd, hsubnd, hjre, hfre, hppre, hfdd⟩ :=
    reach_nodup_parts obs fuel j L hobs hnd
  unfold process_dir at hok
  split at hok
  · cases hok
  · cases hok
  · rename_i d0 hent2
    have hd0 : d0 = d := by
      have h2 := hent2.symm.trans hent
      simp only [Option.some.injEq, Entry.dir.injEq] at h2
      exact h2
    subst d
    split at hok
    · rename_i hobs2
      rw [hobs2] at hobs
      cases hobs
    · rename_i L0 hobs2
      have hL : L0 = L := by
        have h2 := hobs2.symm.trans hobs
        simp only [Option.some.injEq] at h2
        exact h2
      subst L0
      unfold processTail at hok
      split at hok
      · cases hok
      · rename_i da hda
        obtain ⟨hall, hdaeq⟩ := dirsPhase_ok_elim d0.name
          (removeIgnoredDirs L.dirs) _ da hda
        subst da
        split at hok
        · rename_i d1 hd1
          split at hok
          · cases hok
          · rename_i st3 evs3 hndgo
            have h1 : alookup (dirsAcc st d0.name L).st.inode_map j =
                some (.dir d0) := by
              have h2 : alookup (filesAcc st L).st.inode_map j =
                  alookup st.inode_map j :=
                scanFold_map_ne ignore_file (fun nm => nm) L.files
                  ⟨st, [], []⟩ j hjf
              have h3 : alookup (dirsAcc st d0.name L).st.inode_map j =
                  alookup (filesAcc st L).st.inode_map j :=
                scanFold_map_ne (fun _ => false) (pjoin d0.name)
                  (removeIgnoredDirs L.dirs) ⟨(filesAcc st L).st, [], []⟩ j hjd
              rw [h3, h2]
              exact hent
            have hd10 : d1 = d0 := by
              have h2 := hd1.symm.trans h1
              simp only [Option.some.injEq, Entry.dir.injEq] at h2
              exact h2
            subst d1
            exact ⟨st3, evs3, hall, hndgo, hok⟩
        · cases hok
        · cases hok

/-- Observed child-set membership agrees between the files accumulator and
the raw listing. -/
theorem filesAcc_inos_mem (st : WSt) (L : DirListing) (x : Nat) :
    x ∈ (filesAcc st L).inos ↔ x ∈ listInos ignore_file L.files := by
  have h1 : (filesAcc st L).inos = scanInos ignore_file L.files [] :=
    scanFold_inos ignore_file (fun nm => nm) L.files ⟨st, [], []⟩
  rw [h1]
  exact ⟨mem_scanInos_to_listInos _ _ _, mem_listInos_to_scanInos _ _ _⟩

theorem dirsAcc_inos_mem (st : WSt) (dnm : String) (L : DirListing) (x : Nat) :
    x ∈ (dirsAcc st dnm L).inos ↔
      x ∈ listInos (fun _ => false) (removeIgnoredDirs L.dirs) := by
  have h1 : (dirsAcc st dnm L).inos =
      scanInos (fun _ => false) (removeIgnoredDirs L.dirs) [] :=
    scanFold_inos (fun _ => false) (pjoin dnm) (removeIgnoredDirs L.dirs)
      ⟨(filesAcc st L).st, [], []⟩
  rw [h1]
  exact ⟨mem_scanInos_to_listInos _ _ _, mem_listInos_to_scanInos _ _ _⟩

theorem filesAcc_inos_nodup (st : WSt) (L : DirListing) :
    (filesAcc st L).inos.Nodup := by
  have h1 : (filesAcc st L).inos = scanInos ignore_file L.files [] :=
    scanFold_inos ignore_file (fun nm => nm) L.files ⟨st, [], []⟩
  rw [h1]
  exact scanInos_nodup _ _ _ List.nodup_nil

theorem dirsAcc_inos_nodup (st : WSt) (dnm : String) (L : DirListing) :
    (dirsAcc st dnm L).inos.Nodup := by
  have h1 : (dirsAcc st dnm L).inos =
      scanInos (fun _ => false) (removeIgnoredDirs L.dirs) [] :=
    scanFold_inos (fun _ => false) (pjoin dnm) (removeIgnoredDirs L.dirs)
      ⟨(filesAcc st L).st, [], []⟩
  rw [h1]
  exact scanInos_nodup _ _ _ List.nodup_nil

/-- Across the two scan folds and the new-dirs loop, an observed file
child's entry is the starting entry with its recorded name rewritten to the
listed name. -/
theorem chain_files_entry (now : Int) (obs : FsObs) (fuel j : Nat)
    (st st3 : WSt) (evs3 : List LocalEvent) (d : DirState) (L : DirListing)
    (hndgo : newDirsGo (process_dir now obs fuel) now j
        (dirsAcc st d.name L).stats
        (newChildren (dirsAcc st d.name L).inos d.dirs)
        { (dirsAcc st d.name L).st with
          inode_map := aset (dirsAcc st d.name L).st.inode_map j
            (.dir { d with
              files := keptChildren (filesAcc st L).inos d.files,
              dirs := keptChildren (dirsAcc st d.name L).inos d.dirs }) }
        [] = .ok (st3, evs3))
    (hjf : j ∉ listInos ignore_file L.files)
    (hfnd : (listInos ignore_file L.files).Nodup)
    (hfre : ∀ x ∈ listInos ignore_file L.files,
       ∀ i ∈ listInos (fun _ => false) (removeIgnoredDirs L.dirs),
       x ∉ reachList obs fuel i)
    (hfdd : ∀ x ∈ listInos ignore_file L.files,
       x ∉ listInos (fun _ => false) (removeIgnoredDirs L.dirs))
    (f : String) (i : Nat) (hm : (f, some i) ∈ L.files)
    (hig : ignore_file f = false) :
    alookup st3.inode_map i =
      (alookup st.inode_map i).map (fun e => e.withFdName e.fd f) := by
  have hiF : i ∈ listInos ignore_file L.files :=
    (mem_listInos ignore_file L.files i).2 ⟨f, hm, hig⟩
  have hij : i ≠ j := fun he => hjf (he ▸ hiF)
  have hiD : i ∉ listInos (fun _ => false) (removeIgnoredDirs L.dirs) :=
    hfdd i hiF
  have hsubNewD : ∀ x ∈ newChildren (dirsAcc st d.name L).inos d.dirs,
      x ∈ listInos (fun _ => false) (removeIgnoredDirs L.dirs) := by
    intro x hx
    exact (dirsAcc_inos_mem st d.name L x).1 ((mem_sdiff _ _ x).1 hx).1
  have h1 : alookup (filesAcc st L).st.inode_map i =
      (alookup st.inode_map i).map (fun e => e.withFdName e.fd f) :=
    scanFold_map_at ignore_file (fun nm => nm) L.files ⟨st, [], []⟩ f i hm
      hig hfnd
  have h2 : alookup (dirsAcc st d.name L).st.inode_map i =
      alookup (filesAcc st L).st.inode_map i :=
    scanFold_map_ne (fun _ => false) (pjoin d.name)
      (removeIgnoredDirs L.dirs) ⟨(filesAcc st L).st, [], []⟩ i hiD
  have h3 : alookup st3.inode_map i =
      alookup (dirsAcc st d.name L).st.inode_map i := by
    rw [newDirsGo_map_ne (process_dir now obs fuel) now j
      (dirsAcc st d.name L).stats _ _ _ st3 evs3 i hndgo hij
      (fun hmem => hiD (hsubNewD i hmem))
      (fun i' hi' σ σ' e' hok' =>
        process_dir_map_frame now obs fuel i' σ σ' e' i hok'
          (hfre i hiF i' (hsubNewD i' hi')))]
    exact alookup_aset_ne _ _ _ _ hij
  rw [h3, h2, h1]

/-- Postconditions of one successful `process_dir` pass: the scanned
directory's child sets become exactly the observed child sets, and every
observed child ends up either untracked (an untracked recorded child is
left alone) or recorded under its listed name. -/
theorem process_dir_post (now : Int) (obs : FsObs) (fuel j : Nat)
    (st st' : WSt) (evs : List LocalEvent) (d : DirState) (L : DirListing)
    (hok : process_dir now obs (fuel + 1) j st = .ok (st', evs))
    (hnd : (reachList obs (fuel + 1) j).Nodup)
    (hent : alookup st.inode_map j = some (.dir d))
    (hobs : obs j = some L)
    (hfnd0 : d.files.Nodup) (hdnd0 : d.dirs.Nodup) :
    (∀ c ∈ removeIgnoredDirs L.dirs, c.2.isSome = true) ∧
    ∃ F D,
      alookup st'.inode_map j = some (.dir ⟨d.fd, d.name, F, D⟩) ∧
      (∀ x, x ∈ F ↔ x ∈ listInos ignore_file L.files) ∧
      (∀ x, x ∈ D ↔ x ∈ listInos (fun _ => false) (removeIgnoredDirs L.dirs)) ∧
      (∀ f i, (f, some i) ∈ L.files → ignore_file f = false →
        alookup st'.inode_map i = none ∨
          ∃ e, alookup st'.inode_map i = some e ∧ e.name = f) ∧
      (∀ f i, (f, some i) ∈ removeIgnoredDirs L.dirs →
        alookup st'.inode_map i = none ∨
          ∃ e, alookup st'.inode_map i = some e ∧ e.name = pjoin d.name f) := by
  obtain ⟨hjf, hjd, hfnd, hdnd, hsubnd, hjre, hfre, hppre, hfdd⟩ :=
    reach_nodup_parts obs fuel j L hobs hnd
  obtain ⟨st3, evs3, hall, hndgo, hnfgo⟩ :=
    process_dir_decomp now obs fuel j st st' evs d L hok hnd hent hobs
  refine ⟨hall, ?_⟩
  have hsubNewD : ∀ x ∈ newChildren (dirsAcc st d.name L).inos d.dirs,
      x ∈ listInos (fun _ => false) (removeIgnoredDirs L.dirs) := by
    intro x hx
    exact (dirsAcc_inos_mem st d.name L x).1 ((mem_sdiff _ _ x).1 hx).1
  have hsubNewF : ∀ x ∈ newChildren (filesAcc st L).inos d.files,
      x ∈ listInos ignore_file L.files := by
    intro x hx
    exact (filesAcc_inos_mem st L x).1 ((mem_sdiff _ _ x).1 hx).1
  -- the entry after the pruning `aset`
  have hasetEnt : alookup
      (aset (dirsAcc st d.name L).st.inode_map j
        (.dir { d with
          files := keptChildren (filesAcc st L).inos d.files,
          dirs := keptChildren (dirsAcc st d.name L).inos d.dirs })) j =
      some (.dir { d with
          files := keptChildren (filesAcc st L).inos d.files,
          dirs := keptChildren (dirsAcc st d.name L).inos d.dirs }) :=
    alookup_aset_self _ _ _
  obtain ⟨D, hD, hDm⟩ := newDirsGo_root (process_dir now obs fuel) now j
    (dirsAcc st d.name L).stats _ _ _ st3 evs3 _ hndgo
    (fun hmem => hjd (hsubNewD j hmem))
    (fun i hi σ σ' e' hok' =>
      process_dir_map_frame now obs fuel i σ σ' e' j hok'
        (hjre i (hsubNewD i hi)))
    hasetEnt
  obtain ⟨F, hF, hFm⟩ := newFilesGo_root now j d.name (filesAcc st L).stats
    _ _ _ st' evs _ hnfgo (fun hmem => hjf (hsubNewF j hmem)) hD
  have hFchar : ∀ x, x ∈ F ↔ x ∈ listInos ignore_file L.files := by
    intro x
    rw [hFm x]
    constructor
    · rintro (hx | hx)
      · exact (filesAcc_inos_mem st L x).1
          ((mem_keptChildren _ _ hfnd0 x).1 hx).2
      · exact hsubNewF x hx
    · intro hx
      by_cases hk : x ∈ keptChildren (filesAcc st L).inos d.files
      · exact Or.inl hk
      · exact Or.inr ((mem_sdiff _ _ x).2
          ⟨(filesAcc_inos_mem st L x).2 hx, hk⟩)
  have hDchar : ∀ x, x ∈ D ↔
      x ∈ listInos (fun _ => false) (removeIgnoredDirs L.dirs) := by
    intro x
    rw [hDm x]
    constructor
    · rintro (hx | hx)
      · exact (dirsAcc_inos_mem st d.name L x).1
          ((mem_keptChildren _ _ hdnd0 x).1 hx).2
      · exact hsubNewD x hx
    · intro hx
      by_cases hk : x ∈ keptChildren (dirsAcc st d.name L).inos d.dirs
      · exact Or.inl hk
      · exact Or.inr ((mem_sdiff _ _ x).2
          ⟨(dirsAcc_inos_mem st d.name L x).2 hx, hk⟩)
  have hfileClause : ∀ f i, (f, some i) ∈ L.files → ignore_file f = false →
      alookup st'.inode_map i = none ∨
        ∃ e, alookup st'.inode_map i = some e ∧ e.name = f := by
    intro f i hm hig
    have hiF : i ∈ listInos ignore_file L.files :=
      (mem_listInos ignore_file L.files i).2 ⟨f, hm, hig⟩
    have hij : i ≠ j := fun he => hjf (he ▸ hiF)
    have hchain := chain_files_entry now obs fuel j st st3 evs3 d L hndgo
      hjf hfnd hfre hfdd f i hm hig
    by_cases hmemNF : i ∈ newChildren (filesAcc st L).inos d.files
    · obtain ⟨fdv, hstats⟩ : ∃ fd, alookup (filesAcc st L).stats i =
          some (f, fd) :=
        scanFold_stats_at ignore_file (fun nm => nm) L.files ⟨st, [], []⟩
          f i hm hig hfnd
      have hm2 := newFilesGo_member now j d.name (filesAcc st L).stats
        _ _ _ st' evs i f fdv hnfgo (newChildren_nodup _ _
          (filesAcc_inos_nodup st L)) (fun hmem => hjf (hsubNewF j hmem))
        hmemNF hstats
      exact Or.inr ⟨.file ⟨fdv, f, d.name⟩, hm2, rfl⟩
    · have hne := newFilesGo_map_ne now j d.name (filesAcc st L).stats
        _ _ _ st' evs i hnfgo hij hmemNF
      rw [hne, hchain]
      cases he : alookup st.inode_map i with
      | none => exact Or.inl rfl
      | some e =>
        exact Or.inr ⟨e.withFdName e.fd f, rfl, Entry.name_withFdName e e.fd f⟩
  have hdirClause : ∀ f i, (f, some i) ∈ removeIgnoredDirs L.dirs →
      alookup st'.inode_map i = none ∨
        ∃ e, alookup st'.inode_map i = some e ∧ e.name = pjoin d.name f := by
    intro f i hm
    have hiD : i ∈ listInos (fun _ => false) (removeIgnoredDirs L.dirs) :=
      (mem_listInos (fun _ => false) (removeIgnoredDirs L.dirs) i).2
        ⟨f, hm, rfl⟩
    have hij : i ≠ j := fun he => hjd (he ▸ hiD)
    have hiF : i ∉ listInos ignore_file L.files :=
      fun hmem => hfdd i hmem hiD
    have hiNF : i ∉ newChildren (filesAcc st L).inos d.files :=
      fun hmem => hiF (hsubNewF i hmem)
    have h1 : alookup (filesAcc st L).st.inode_map i =
        alookup st.inode_map i :=
      scanFold_map_ne ignore_file (fun nm => nm) L.files ⟨st, [], []⟩ i hiF
    have h2 : alookup (dirsAcc st d.name L).st.inode_map i =
        (alookup (filesAcc st L).st.inode_map i).map
          (fun e => e.withFdName e.fd (pjoin d.name f)) :=
      scanFold_map_at (fun _ => false) (pjoin d.name)
        (removeIgnoredDirs L.dirs) ⟨(filesAcc st L).st, [], []⟩ f i hm rfl
        hdnd
    have hneF := newFilesGo_map_ne now j d.name (filesAcc st L).stats
      _ _ _ st' evs i hnfgo hij hiNF
    by_cases hmemND : i ∈ newChildren (dirsAcc st d.name L).inos d.dirs
    · obtain ⟨fdv, hstats⟩ : ∃ fd, alookup (dirsAcc st d.name L).stats i =
          some (pjoin d.name f, fd) :=
        scanFold_stats_at (fun _ => false) (pjoin d.name)
          (removeIgnoredDirs L.dirs) ⟨(filesAcc st L).st, [], []⟩ f i hm rfl
          hdnd
      obtain ⟨F2, D2, hFD⟩ := newDirsGo_member (process_dir now obs fuel)
        now j (dirsAcc st d.name L).stats _ _ _ st3 evs3 i (pjoin d.name f)
        fdv hndgo (newChildren_nodup _ _ (dirsAcc_inos_nodup st d.name L))
        (fun hmem => hjd (hsubNewD j hmem)) hmemND hstats
        (fun i' hi' σ σ' e' hok' k hk hkin =>
          process_dir_map_frame now obs fuel i' σ σ' e' k hok'
            (by
              rcases hkin with hkl | rfl
              · exact hppre i' (hsubNewD i' hi') k (hsubNewD k hkl) hk
              · exact hjre i' (hsubNewD i' hi')))
        (fun i' hi' σ σ' e' dd2 hok' hent2 =>
          process_dir_root_entry now obs fuel i' σ σ' e' dd2 hok'
            (hsubnd i' (hsubNewD i' hi')) hent2)
      rw [hneF]
      exact Or.inr ⟨.dir ⟨fdv, pjoin d.name f, F2, D2⟩, hFD, rfl⟩
    · have h3 : alookup st3.inode_map i =
          alookup (dirsAcc st d.name L).st.inode_map i := by
        rw [newDirsGo_map_ne (process_dir now obs fuel) now j
          (dirsAcc st d.name L).stats _ _ _ st3 evs3 i hndgo hij hmemND
          (fun i' hi' σ σ' e' hok' =>
            process_dir_map_frame now obs fuel i' σ σ' e' i hok'
              (hppre i' (hsubNewD i' hi') i hiD
                (fun he => hmemND (by rw [he]; exact hi'))))]
        exact alookup_aset_ne _ _ _ _ hij
      rw [hneF, h3, h2, h1]
      cases he : alookup st.inode_map i with
      | none => exact Or.inl rfl
      | some e =>
        exact Or.inr ⟨e.withFdName e.fd (pjoin d.name f), rfl,
          Entry.name_withFdName e e.fd (pjoin d.name f)⟩
  exact ⟨F, D, hF, hFchar, hDchar, hfileClause, hdirClause⟩

/-- A rescan of a directory whose recorded child sets already coincide with
the observed children, each recorded under its listed name, succeeds and
leaves the inode map and the changelist untouched while emitting no
events. -/
theorem process_dir_rescan (now2 : Int) (obs : FsObs) (fuel j : Nat)
    (st1 : WSt) (d : DirState) (L : DirListing)
    (hent : alookup st1.inode_map j = some (.dir d))
    (hobs : obs j = some L)
    (hall : ∀ c ∈ removeIgnoredDirs L.dirs, c.2.isSome = true)
    (hF : ∀ x, x ∈ d.files ↔ x ∈ listInos ignore_file L.files)
    (hD : ∀ x, x ∈ d.dirs ↔
      x ∈ listInos (fun _ => false) (removeIgnoredDirs L.dirs))
    (hfile : ∀ f i, (f, some i) ∈ L.files → ignore_file f = false →
      alookup st1.inode_map i = none ∨
        ∃ e, alookup st1.inode_map i = some e ∧ e.name = f)
    (hdir : ∀ f i, (f, some i) ∈ removeIgnoredDirs L.dirs →
      alookup st1.inode_map i = none ∨
        ∃ e, alookup st1.inode_map i = some e ∧ e.name = pjoin d.name f) :
    ∃ st2, process_dir now2 obs (fuel + 1) j st1 = .ok (st2, []) ∧
      st2.inode_map = st1.inode_map ∧ st2.changelist = st1.changelist := by
  have hmapF : (filesAcc st1 L).st.inode_map = st1.inode_map :=
    scanFold_map_id ignore_file (fun nm => nm) L.files ⟨st1, [], []⟩
      (fun f i hm hig => hfile f i hm hig)
  have hmapD : (dirsAcc st1 d.name L).st.inode_map = st1.inode_map := by
    have h2 : (dirsAcc st1 d.name L).st.inode_map =
        (filesAcc st1 L).st.inode_map :=
      scanFold_map_id (fun _ => false) (pjoin d.name)
        (removeIgnoredDirs L.dirs) ⟨(filesAcc st1 L).st, [], []⟩
        (fun f i hm _ => by
          have h3 := hdir f i hm
          rw [← hmapF] at h3
          exact h3)
    rw [h2, hmapF]
  have hclF : (filesAcc st1 L).st.changelist = st1.changelist :=
    scanFold_changelist ignore_file (fun nm => nm) L.files ⟨st1, [], []⟩
  have hclD : (dirsAcc st1 d.name L).st.changelist = st1.changelist := by
    have h2 : (dirsAcc st1 d.name L).st.changelist =
        (filesAcc st1 L).st.changelist :=
      scanFold_changelist (fun _ => false) (pjoin d.name)
        (removeIgnoredDirs L.dirs) ⟨(filesAcc st1 L).st, [], []⟩
    rw [h2, hclF]
  have hsubF : ∀ x ∈ d.files, x ∈ (filesAcc st1 L).inos :=
    fun x hx => (filesAcc_inos_mem st1 L x).2 ((hF x).1 hx)
  have hsupF : ∀ x ∈ (filesAcc st1 L).inos, x ∈ d.files :=
    fun x hx => (hF x).2 ((filesAcc_inos_mem st1 L x).1 hx)
  have hsubD : ∀ x ∈ d.dirs, x ∈ (dirsAcc st1 d.name L).inos :=
    fun x hx => (dirsAcc_inos_mem st1 d.name L x).2 ((hD x).1 hx)
  have hsupD : ∀ x ∈ (dirsAcc st1 d.name L).inos, x ∈ d.dirs :=
    fun x hx => (hD x).2 ((dirsAcc_inos_mem st1 d.name L x).1 hx)
  have hkF : keptChildren (filesAcc st1 L).inos d.files = d.files :=
    keptChildren_self _ _ hsubF
  have hnF : newChildren (filesAcc st1 L).inos d.files = [] :=
    newChildren_nil _ _ hsubF hsupF
  have hkD : keptChildren (dirsAcc st1 d.name L).inos d.dirs = d.dirs :=
    keptChildren_self _ _ hsubD
  have hnD : newChildren (dirsAcc st1 d.name L).inos d.dirs = [] :=
    newChildren_nil _ _ hsubD hsupD
  have hent2 : alookup (dirsAcc st1 d.name L).st.inode_map j =
      some (.dir d) := by
    rw [hmapD]
    exact hent
  have hrun : process_dir now2 obs (fuel + 1) j st1 =
      .ok ({ (dirsAcc st1 d.name L).st with
        inode_map := aset (dirsAcc st1 d.name L).st.inode_map j (.dir d) },
        []) := by
    rw [process_dir_eq now2 obs fuel j st1 d L hent hobs]
    rw [dirsPhase_eq_of_some d.name (removeIgnoredDirs L.dirs)
      ⟨(filesAcc st1 L).st, [], []⟩ hall]
    exact processTail_id (process_dir now2 obs fuel) now2 j d.name
      (filesAcc st1 L) (dirsAcc st1 d.name L) d hent2 hkF hnF hkD hnD
  refine ⟨_, hrun, ?_, ?_⟩
  · show aset (dirsAcc st1 d.name L).st.inode_map j (.dir d) =
      st1.inode_map
    rw [hmapD]
    exact aset_lookup_self _ _ _ hent
  · show (dirsAcc st1 d.name L).st.changelist = st1.changelist
    exact hclD

/-- Every event a `process_dir` call emits names an inode inside the reach
set of the scanned directory. -/
theorem process_dir_events_inos (now : Int) (obs : FsObs) :
    ∀ (fuel j : Nat) (st st' : WSt) (evs : List LocalEvent),
    process_dir now obs fuel j st = .ok (st', evs) →
    ∀ ev ∈ evs, ∃ x : Nat, ev.inode = (x : Int) ∧ x ∈ reachList obs fuel j
  | 0, j, st, st', evs, hok => by cases hok
  | fuel + 1, j, st, st', evs, hok => by
    unfold process_dir at hok
    split at hok
    · cases hok
    · cases hok
    · rename_i d0 hent
      split at hok
      · rename_i hobs
        cases hok
        intro ev hm
        exact absurd hm (List.not_mem_nil _)
      · rename_i L hobs
        unfold processTail at hok
        split at hok
        · cases hok
        · rename_i da hda
          obtain ⟨hall, hdaeq⟩ := dirsPhase_ok_elim d0.name
            (removeIgnoredDirs L.dirs) _ da hda
          split at hok
          · rename_i d1 hd1
            split at hok
            · cases hok
            · rename_i st3 evs3 hndgo
              intro ev hm
              have hsubd : ∀ i ∈ newChildren da.inos d1.dirs,
                  i ∈ listInos (fun _ => false) (removeIgnoredDirs L.dirs) := by
                intro i hi
                have h5 : i ∈ da.inos := ((mem_sdiff _ _ i).1 hi).1
                rw [hdaeq] at h5
                rw [scanFold_inos] at h5
                exact mem_scanInos_to_listInos _ _ _ h5
              have hsubf : ∀ i ∈ newChildren
                  (L.files.foldl filesStep ⟨st, [], []⟩).inos d1.files,
                  i ∈ listInos ignore_file L.files := by
                intro i hi
                have h4 : i ∈ scanInos ignore_file L.files
                    ((⟨st, [], []⟩ : ScanAcc)).inos := by
                  rw [← scanFold_inos ignore_file (fun nm => nm) L.files
                    ⟨st, [], []⟩]
                  exact ((mem_sdiff _ _ i).1 hi).1
                exact mem_scanInos_to_listInos _ _ _ h4
              rcases newFilesGo_events_sub now j d0.name _ _ _ _ st' evs
                hok ev hm with hin3 | ⟨i, hi, nm, fd, hsti, hev⟩
              · rcases newDirsGo_events_sub (process_dir now obs fuel) now j
                  da.stats (fun i2 ev2 => ∃ x : Nat, ev2.inode = (x : Int) ∧
                    x ∈ reachList obs fuel i2) _ _ _ st3 evs3 hndgo
                  (fun i2 hi2 σ σ' e' hok' ev' hm' =>
                    process_dir_events_inos now obs fuel i2 σ σ' e' hok'
                      ev' hm') ev hin3 with hnil | hcd | hp
                · exact absurd hnil (List.not_mem_nil _)
                · obtain ⟨i, hi, nm, fd, hsti, hev⟩ := hcd
                  refine ⟨i, by subst hev; rfl, ?_⟩
                  rw [reachList_succ_some obs fuel j L hobs]
                  exact List.mem_cons_of_mem _ (List.mem_append.2 (Or.inr
                    (List.mem_flatMap.2
                      ⟨i, hsubd i hi, reach_self obs fuel i⟩)))
                · obtain ⟨i2, hi2, x, hx, hxr⟩ := hp
                  refine ⟨x, hx, ?_⟩
                  rw [reachList_succ_some obs fuel j L hobs]
                  exact List.mem_cons_of_mem _ (List.mem_append.2 (Or.inr
                    (List.mem_flatMap.2 ⟨i2, hsubd i2 hi2, hxr⟩)))
              · refine ⟨i, by subst hev; rfl, ?_⟩
                rw [reachList_succ_some obs fuel j L hobs]
                exact List.mem_cons_of_mem _ (List.mem_append.2
                  (Or.inl (hsubf i hi)))
          · cases hok
          · cases hok

/-! ## Claim C4: rescanning with unchanged observations is idempotent -/

/-- Claim C4.  After one successful `process_dir` pass over a tracked
directory (well-formed: duplicate-free recorded child sets, duplicate-free
reach set), a second pass with the same filesystem observations succeeds,
leaves `inode_map` (the InodeMap) and `changelist` (the ChangeList) exactly
as the first pass left them, and emits no events. -/
theorem c4_idempotent_rescan (now now2 : Int) (obs : FsObs) (fuel j : Nat)
    (st st1 : WSt) (evs : List LocalEvent) (d : DirState)
    (hent : alookup st.inode_map j = some (.dir d))
    (hfnd0 : d.files.Nodup) (hdnd0 : d.dirs.Nodup)
    (hnd : (reachList obs fuel j).Nodup)
    (hok : process_dir now obs fuel j st = .ok (st1, evs)) :
    ∃ st2, process_dir now2 obs fuel j st1 = .ok (st2, []) ∧
      st2.inode_map = st1.inode_map ∧ st2.changelist = st1.changelist := by
  cases fuel with
  | zero => cases hok
  | succ fuel =>
    cases hobs : obs j with
    | none =>
      have heq : process_dir now obs (fuel + 1) j st = .ok (st, []) := by
        unfold process_dir
        rw [hent, hobs]
      rw [heq] at hok
      simp only [Except.ok.injEq, Prod.mk.injEq] at hok
      obtain ⟨h1, h2⟩ := hok
      subst h1
      refine ⟨st, ?_, rfl, rfl⟩
      unfold process_dir
      rw [hent, hobs]
    | some L =>
      obtain ⟨hall, F, D, hroot, hFc, hDc, hfileC, hdirC⟩ :=
        process_dir_post now obs fuel j st st1 evs d L hok hnd hent hobs
          hfnd0 hdnd0
      exact process_dir_rescan now2 obs fuel j st1 ⟨d.fd, d.name, F, D⟩ L
        hroot hobs hall hFc hDc hfileC hdirC

theorem c4_idempotent_rescan_witness :
    ∃ st2, process_dir 7 c4Obs 2 1 c4StAfter = .ok (st2, []) ∧
      st2.inode_map = c4StAfter.inode_map ∧
      st2.changelist = c4StAfter.changelist :=
  c4_idempotent_rescan 0 7 c4Obs 2 1 c4St c4StAfter
    [CreateDirEv 5 "./b" 11 0, CreateFileEv 2 "a" 10 0]
    ⟨3, ".", [], []⟩ (by decide) (by decide) (by decide) (by decide)
    (by decide)

/-! ## Claim C6 (amended): which rescanned children get create events -/

/-- Claim C6 (amended).  During one `process_dir` pass over a tracked
directory, a `create_file` event is emitted exactly for the observed child
file inodes that are not keys of the inode map (provided the recorded
child-file set only holds tracked inodes, which the tracked state
maintains); but a `create_dir` event is emitted exactly for the observed
child directory inodes missing from the recorded child-dir set, regardless
of inode-map membership. -/
theorem c6_create_events_characterization (now : Int) (obs : FsObs)
    (fuel j : Nat) (st st' : WSt) (evs : List LocalEvent) (d : DirState)
    (L : DirListing)
    (hok : process_dir now obs (fuel + 1) j st = .ok (st', evs))
    (hnd : (reachList obs (fuel + 1) j).Nodup)
    (hent : alookup st.inode_map j = some (.dir d))
    (hobs : obs j = some L)
    (hfnd0 : d.files.Nodup) (hdnd0 : d.dirs.Nodup)
    (hinv : ∀ x ∈ d.files, (alookup st.inode_map x).isSome = true) :
    (∀ x ∈ listInos ignore_file L.files,
      ((∃ e ∈ evs, e.type = EventType.create_file ∧ e.inode = (x : Int)) ↔
        alookup st.inode_map x = none)) ∧
    (∀ x ∈ listInos (fun _ => false) (removeIgnoredDirs L.dirs),
      ((∃ e ∈ evs, e.type = EventType.create_dir ∧ e.inode = (x : Int)) ↔
        x ∉ d.dirs)) := by
  obtain ⟨hjf, hjd, hfnd, hdnd, hsubnd, hjre, hfre, hppre, hfdd⟩ :=
    reach_nodup_parts obs fuel j L hobs hnd
  obtain ⟨st3, evs3, hall, hndgo, hnfgo⟩ :=
    process_dir_decomp now obs fuel j st st' evs d L hok hnd hent hobs
  have hsubNewD : ∀ x ∈ newChildren (dirsAcc st d.name L).inos d.dirs,
      x ∈ listInos (fun _ => false) (removeIgnoredDirs L.dirs) := by
    intro x hx
    exact (dirsAcc_inos_mem st d.name L x).1 ((mem_sdiff _ _ x).1 hx).1
  have hsubNewF : ∀ x ∈ newChildren (filesAcc st L).inos d.files,
      x ∈ listInos ignore_file L.files := by
    intro x hx
    exact (filesAcc_inos_mem st L x).1 ((mem_sdiff _ _ x).1 hx).1
  constructor
  · intro x hxF
    obtain ⟨f, hmf, higf⟩ := (mem_listInos ignore_file L.files x).1 hxF
    have hchain := chain_files_entry now obs fuel j st st3 evs3 d L hndgo
      hjf hfnd hfre hfdd f x hmf higf
    have hev := newFilesGo_events now j d.name (filesAcc st L).stats
      _ _ _ st' evs hnfgo (newChildren_nodup _ _ (filesAcc_inos_nodup st L))
      (fun hmem => hjf (hsubNewF j hmem)) x
    rw [hev]
    constructor
    · rintro (h3 | ⟨hxl, hxn⟩)
      · exfalso
        obtain ⟨e, hme, het, hei⟩ := h3
        rcases newDirsGo_events_sub (process_dir now obs fuel) now j
          (dirsAcc st d.name L).stats (fun i2 ev2 => ∃ y : Nat,
            ev2.inode = (y : Int) ∧ y ∈ reachList obs fuel i2)
          _ _ _ st3 evs3 hndgo
          (fun i2 hi2 σ σ' e' hok' ev' hm' =>
            process_dir_events_inos now obs fuel i2 σ σ' e' hok' ev' hm')
          e hme with hnil | hcd | hp
        · exact absurd hnil (List.not_mem_nil _)
        · obtain ⟨i, hi, nm, fd, hsti, hev2⟩ := hcd
          rw [hev2] at het
          have h2 : EventType.create_dir = EventType.create_file := het
          exact absurd h2 (by decide)
        · obtain ⟨i2, hi2, y, hy, hyr⟩ := hp
          have h2 : (x : Int) = (y : Int) := hei.symm.trans hy
          have hxy : x = y := by exact_mod_cast h2
          subst y
          exact hfre x hxF i2 (hsubNewD i2 hi2) hyr
      · rw [hchain] at hxn
        exact Option.map_eq_none'.1 hxn
    · intro hxn
      have hxdf : x ∉ d.files := fun hdmem => by
        have h2 := hinv x hdmem
        rw [hxn] at h2
        cases h2
      refine Or.inr ⟨?_, ?_⟩
      · exact (mem_sdiff _ _ x).2 ⟨(filesAcc_inos_mem st L x).2 hxF,
          fun hk => hxdf ((mem_keptChildren _ _ hfnd0 x).1 hk).1⟩
      · rw [hchain, hxn]
        rfl
  · intro x hxD
    constructor
    · rintro ⟨e, hme, het, hei⟩
      rcases newFilesGo_events_sub now j d.name (filesAcc st L).stats
        _ _ _ st' evs hnfgo e hme with hin3 | ⟨i, hi, nm, fd, hsti, hev2⟩
      · rcases newDirsGo_events_sub (process_dir now obs fuel) now j
          (dirsAcc st d.name L).stats (fun i2 ev2 => ∃ y : Nat,
            ev2.inode = (y : Int) ∧ y ∈ reachList obs fuel i2)
          _ _ _ st3 evs3 hndgo
          (fun i2 hi2 σ σ' e' hok' ev' hm' =>
            process_dir_events_inos now obs fuel i2 σ σ' e' hok' ev' hm')
          e hin3 with hnil | hcd | hp
        · exact absurd hnil (List.not_mem_nil _)
        · obtain ⟨i, hi, nm, fd, hsti, hev2⟩ := hcd
          have h2 : (i : Int) = (x : Int) := by
            rw [hev2] at hei
            exact hei
          have hxi : x = i := by exact_mod_cast h2.symm
          subst i
          have hn := (mem_newChildren _ _ hdnd0 x).1 hi
          exact fun hdm => hn.2 ⟨hdm, hn.1⟩
        · obtain ⟨i2, hi2, y, hy, hyr⟩ := hp
          have h2 : (x : Int) = (y : Int) := hei.symm.trans hy
          have hxy : x = y := by exact_mod_cast h2
          subst y
          by_cases hxi2 : x = i2
          · subst i2
            have hn := (mem_newChildren _ _ hdnd0 x).1 hi2
            exact fun hdm => hn.2 ⟨hdm, hn.1⟩
          · exact absurd hyr (hppre i2 (hsubNewD i2 hi2) x hxD hxi2)
      · rw [hev2] at het
        have h2 : EventType.create_file = EventType.create_dir := het
        exact absurd h2 (by decide)
    · intro hxnd
      have hxl : x ∈ newChildren (dirsAcc st d.name L).inos d.dirs :=
        (mem_sdiff _ _ x).2 ⟨(dirsAcc_inos_mem st d.name L x).2 hxD,
          fun hk => hxnd ((mem_keptChildren _ _ hdnd0 x).1 hk).1⟩
      obtain ⟨e, hme3, het, hei⟩ := newDirsGo_events_super
        (process_dir now obs fuel) now j (dirsAcc st d.name L).stats
        _ _ _ st3 evs3 hndgo x hxl
      exact ⟨e, newFilesGo_evs_mono now j d.name (filesAcc st L).stats
        _ _ _ st' evs hnfgo e hme3, het, hei⟩

theorem c6_create_events_characterization_witness :
    (∀ x ∈ listInos ignore_file [("a", some 2)],
      ((∃ e ∈ [CreateDirEv 5 "./b" 11 0, CreateFileEv 2 "a" 10 0],
          e.type = EventType.create_file ∧ e.inode = (x : Int)) ↔
        alookup c4St.inode_map x = none)) ∧
    (∀ x ∈ listInos (fun _ => false) (removeIgnoredDirs [("b", some 5)]),
      ((∃ e ∈ [CreateDirEv 5 "./b" 11 0, CreateFileEv 2 "a" 10 0],
          e.type = EventType.create_dir ∧ e.inode = (x : Int)) ↔
        x ∉ (⟨3, ".", [], []⟩ : DirState).dirs)) :=
  c6_create_events_characterization 0 c4Obs 1 1 c4St c4StAfter
    [CreateDirEv 5 "./b" 11 0, CreateFileEv 2 "a" 10 0]
    ⟨3, ".", [], []⟩ ⟨[("a", some 2)], [("b", some 5)]⟩
    (by decide) (by decide) (by decide) (by rfl) (by decide) (by decide)
    (by decide)

/-! ## Claim C10: `unregister` on an untracked inode -/

/-- Claim C10.  For an inode that is not a key of `inode_map`, `unregister`
is a no-op: the state (map, changelist, descriptor logs) is returned
untouched and the result is `None`; for a tracked inode it returns the
removed entry's recorded name. -/
theorem c10_unregister_semantics (st : WSt) (i : Nat) :
    (alookup st.inode_map i = none → unregister st i = (st, none)) ∧
    (∀ e, alookup st.inode_map i = some e →
       (unregister st i).2 = some (Entry.name e)) := by
  constructor
  · intro h
    unfold unregister
    rw [h]
  · intro e h
    unfold unregister
    rw [h]

/-- Witness for C10 on a concrete two-entry map: inode 9 is untracked
(no-op, `None`), inode 1 is tracked (returns its name). -/
theorem c10_unregister_semantics_witness :
    unregister ⟨[(1, .dir ⟨3, "top", [], []⟩)], [], 5, []⟩ 9 =
      (⟨[(1, .dir ⟨3, "top", [], []⟩)], [], 5, []⟩, none) ∧
    (unregister ⟨[(1, .dir ⟨3, "top", [], []⟩)], [], 5, []⟩ 1).2 = some "top" := by
  refine ⟨?_, ?_⟩
  · exact (c10_unregister_semantics ⟨[(1, .dir ⟨3, "top", [], []⟩)], [], 5, []⟩ 9).1
      (by decide)
  · exact (c10_unregister_semantics ⟨[(1, .dir ⟨3, "top", [], []⟩)], [], 5, []⟩ 1).2
      (.dir ⟨3, "top", [], []⟩) (by decide)

/-! ## Claim C9: file rename branch -/

/-- Claim C9.  A file notification with the rename sub-flag (and no delete
sub-flag, whose branch is separate) emits `rename_file` with name the join
of the recorded parent path and recorded basename and the entry's
descriptor, and returns the watcher state exactly as it was: `inode_map`,
`changelist`, descriptor allocation and close log all untouched — in
particular the entry stays tracked and registered and nothing is
unregistered or closed. -/
theorem c9_rename_file_event_and_frame (now : Int) (st : WSt) (ev : KEvent)
    (f : FileState)
    (hent : alookup st.inode_map ev.udata = some (.file f))
    (hren : ev.fflags &&& KQ_NOTE_RENAME ≠ 0)
    (hdel : ev.fflags &&& KQ_NOTE_DELETE = 0) :
    ∃ evs, handle_file_event now st ev = .ok (st, evs) ∧
      RenameFileEv ev.udata (pjoin f.dirs f.name) f.fd now ∈ evs := by
  by_cases hw : ev.fflags &&& KQ_NOTE_WRITE ≠ 0
  · refine ⟨[RenameFileEv ev.udata (pjoin f.dirs f.name) f.fd now,
             WriteEv ev.udata f.name f.fd now], ?_, by simp⟩
    simp [handle_file_event, hent, hren, hdel, hw]
  · refine ⟨[RenameFileEv ev.udata (pjoin f.dirs f.name) f.fd now], ?_, by simp⟩
    simp [handle_file_event, hent, hren, hdel, hw]

/-- Witness for C9: a concrete rename notification on a tracked file. -/
theorem c9_rename_file_event_and_frame_witness :
    ∃ evs, handle_file_event 7 ⟨[(2, .file ⟨11, "tango", "root"⟩)], [], 20, []⟩
        ⟨11, -4, 0, 0x20, 2⟩ = .ok (⟨[(2, .file ⟨11, "tango", "root"⟩)], [], 20, []⟩, evs) ∧
      RenameFileEv 2 (pjoin "root" "tango") 11 7 ∈ evs :=
  c9_rename_file_event_and_frame 7 ⟨[(2, .file ⟨11, "tango", "root"⟩)], [], 20, []⟩
    ⟨11, -4, 0, 0x20, 2⟩ ⟨11, "tango", "root"⟩ (by decide) (by decide) (by decide)

/-! ## Claim C5: consumer-side inode check -/

/-- `recvLoop` acts on the first `SCM_RIGHTS` ancillary item. -/
theorem recvLoop_eq_of_firstRights (statOf : Int → Option Int)
    (data : List (String × PyVal)) (fd : Int) (fds : List Int)
    (ev : LocalEvent) (n : Int)
    (hload : load_event data = some ev) (hstat : statOf fd = some n) :
    ∀ (anc : List AncItem),
    firstRights anc = some (fd :: fds) →
    recvLoop statOf data anc =
      if n = ev.inode then
        if ev.type ∈ [EventType.create_file, EventType.rename_file,
                      EventType.write] then
          .ok (some ev, some fd)
        else
          .ok (some ev, none)
      else
        .error .assertErr
  | [], h => by cases h
  | a :: rest, h => by
    unfold firstRights at h
    unfold recvLoop
    by_cases hm : a.level = SOL_SOCKET ∧ a.ctype = SCM_RIGHTS
    · rw [if_pos hm] at h ⊢
      rw [Option.some.injEq] at h
      rw [h]
      simp only [hload, hstat]
    · rw [if_neg hm] at h ⊢
      exact recvLoop_eq_of_firstRights statOf data fd fds ev n hload hstat rest h

/-- Claim C5.  On a received message whose ancillary data carries a
descriptor (a `SCM_RIGHTS` item whose first payload entry is `fd`),
`recv_event` compares the stat-inode of `fd` with the parsed event's inode:
on mismatch it raises the assertion (`AssertionError`), and only on a match
does it return the parsed event. -/
theorem c5_recv_event_inode_check (statOf : Int → Option Int)
    (data : List (String × PyVal)) (anc : List AncItem)
    (fd : Int) (fds : List Int) (ev : LocalEvent) (n : Int)
    (hr : firstRights anc = some (fd :: fds))
    (hload : load_event data = some ev)
    (hstat : statOf fd = some n) :
    (n ≠ ev.inode → recv_event statOf data anc = .error .assertErr) ∧
    (n = ev.inode → ∃ r, recv_event statOf data anc = .ok (some ev, r)) := by
  have hanc : ¬ anc.length < 1 := by
    cases anc with
    | nil => cases hr
    | cons a rest => simp
  have hloop := recvLoop_eq_of_firstRights statOf data fd fds ev n hload hstat
    anc hr
  unfold recv_event
  rw [if_neg hanc, hloop]
  constructor
  · intro hne
    rw [if_neg hne]
  · intro heq
    rw [if_pos heq]
    by_cases ht : ev.type ∈ [EventType.create_file, EventType.rename_file,
                             EventType.write]
    · exact ⟨some fd, by rw [if_pos ht]⟩
    · exact ⟨none, by rw [if_neg ht]⟩

/-- Witness for C5: a `write` event for inode 5; with a descriptor whose
stat-inode is 6 the receive fails the assertion, with 5 it returns the
event. -/
theorem c5_recv_event_inode_check_witness :
    recv_event (fun _ => some 6) (dump_event (WriteEv 5 "junk" 7 0))
      [⟨SOL_SOCKET, SCM_RIGHTS, [7]⟩] = .error .assertErr ∧
    ∃ r, recv_event (fun _ => some 5) (dump_event (WriteEv 5 "junk" 7 0))
      [⟨SOL_SOCKET, SCM_RIGHTS, [7]⟩] = .ok (some (WriteEv 5 "junk" 7 0), r) := by
  constructor
  · exact (c5_recv_event_inode_check (fun _ => some 6)
      (dump_event (WriteEv 5 "junk" 7 0)) [⟨SOL_SOCKET, SCM_RIGHTS, [7]⟩]
      7 [] (WriteEv 5 "junk" 7 0) 6 (by decide) (by decide) (by decide)).1
      (by decide)
  · exact (c5_recv_event_inode_check (fun _ => some 5)
      (dump_event (WriteEv 5 "junk" 7 0)) [⟨SOL_SOCKET, SCM_RIGHTS, [7]⟩]
      7 [] (WriteEv 5 "junk" 7 0) 5 (by decide) (by decide) (by decide)).2
      (by decide)

/-- Claim C1 (evaluation at the failing input).  `rename_dir` finds the new
path `r/junkdir`, and rewrites the descendant `DirEntry` (inode 3)
correctly to `r/junkdir/subsub` — but the descendant `FileEntry` under it
(inode 4) gets recorded parent path `r/junkdir/junkfile` (the grandparent's
new path joined with the file's own basename) rather than its containing
directory's new path `r/junkdir/subsub`, and the direct child `FileEntry`
(inode 2) keeps the stale parent path `r/sub` instead of `r/junkdir`.  This
contradicts the claimed invariant. -/
theorem c1_rename_dir_descendant_paths_eval :
    rename_dir rdRenL rdInodeOf 5 rdMap 1 =
      .ok ([(1, .dir ⟨10, "r/sub", [2], [3]⟩),
            (2, .file ⟨20, "f0", "r/sub"⟩),
            (3, .dir ⟨30, "r/junkdir/subsub", [4], []⟩),
            (4, .file ⟨40, "junkfile", "r/junkdir/junkfile"⟩)], "r/junkdir") ∧
    ("r/sub" ≠ "r/junkdir" ∧ "r/junkdir/junkfile" ≠ "r/junkdir/subsub") := by
  decide

/-- Claim C7 (evaluation at the failing input).  A rename notification for
the watched root is not skipped: the handler invokes the directory-rename
reconciliation, which propagates `FileNotFoundError` (from walking the
empty parent path) — it does not return the untouched state with no
events. -/
theorem c7_root_rename_not_skipped_eval :
    handle_dir_event 0 (fun _ => none) (fun _ => none) (fun _ => none) 3 5
        rootSt ⟨4, -4, 0, KQ_NOTE_RENAME, 1⟩ = .error .fileNotFound ∧
    handle_dir_event 0 (fun _ => none) (fun _ => none) (fun _ => none) 3 5
        rootSt ⟨4, -4, 0, KQ_NOTE_RENAME, 1⟩ ≠ .ok (rootSt, []) := by
  decide

/-- Counterexample to claim C8 as stated.  A `FileNotFoundError` while
statting an observed *subdirectory* child is not swallowed: the
reconciliation propagates it (the vanished *file* child `x` on the same
pass was swallowed — the error is the dir child's). -/
theorem c8_dir_child_enoent_propagates :
    process_dir 0 c8Obs 2 1 c8St = .error .fileNotFound := by
  decide

/-- A vanished child contributes nothing to either stats loop. -/
theorem scanStep_vanished (ign : String → Bool) (mk : String → String)
    (acc : ScanAcc) (f : String) :
    scanStep ign mk acc (f, none) = acc := by
  unfold scanStep
  split
  · rfl
  · rfl

/-- The files loop ignores vanished children entirely. -/
theorem filesFold_filter_vanished :
    ∀ (l : List (String × Option Nat)) (acc : ScanAcc),
    (l.filter (fun c => c.2.isSome)).foldl filesStep acc = l.foldl filesStep acc
  | [], acc => rfl
  | (f, os) :: rest, acc => by
    cases os with
    | none =>
      simp only [List.filter_cons, Option.isSome_none, Bool.false_eq_true,
        if_false, List.foldl_cons, filesStep, scanStep_vanished]
      exact filesFold_filter_vanished rest acc
    | some i =>
      simp only [List.filter_cons, Option.isSome_some, if_true, List.foldl_cons]
      exact filesFold_filter_vanished rest (filesStep acc (f, some i))

/-- `newDirsGo` only looks at its recursion argument pointwise. -/
theorem newDirsGo_congr (r1 r2 : Nat → WSt → Except PyErr (WSt × List LocalEvent))
    (h : ∀ i st, r1 i st = r2 i st) (now : Int) (dirIno : Nat)
    (stats : List (Nat × (String × Nat))) :
    ∀ (lst : List Nat) (st : WSt) (evs : List LocalEvent),
    newDirsGo r1 now dirIno stats lst st evs = newDirsGo r2 now dirIno stats lst st evs
  | [], st, evs => rfl
  | i :: rest, st, evs => by
    unfold newDirsGo
    cases alookup stats i with
    | none => rfl
    | some nmfd =>
      obtain ⟨nm, fd⟩ := nmfd
      dsimp only
      cases alookup (register_dir st fd nm i [] []).inode_map dirIno with
      | none => rfl
      | some e =>
        cases e with
        | file _ => rfl
        | dir dd =>
          dsimp only
          rw [h]
          cases r2 i _ with
          | error e => rfl
          | ok p =>
            obtain ⟨st3, evs'⟩ := p
            exact newDirsGo_congr r1 r2 h now dirIno stats rest st3 _

/-- `processTail` only looks at its recursion argument pointwise. -/
theorem processTail_congr (r1 r2 : Nat → WSt → Except PyErr (WSt × List LocalEvent))
    (h : ∀ i st, r1 i st = r2 i st) (now : Int) (dirIno : Nat)
    (d0name : String) (fa : ScanAcc) (dres : Except PyErr ScanAcc) :
    processTail r1 now dirIno d0name fa dres =
      processTail r2 now dirIno d0name fa dres := by
  unfold processTail
  cases dres with
  | error e => rfl
  | ok da =>
    dsimp only
    cases alookup da.st.inode_map dirIno with
    | none => rfl
    | some e =>
      cases e with
      | file f => rfl
      | dir d1 =>
        dsimp only
        rw [newDirsGo_congr r1 r2 h]

/-- Claim C8 (amended half).  Dropping the vanished *file* children from
every directory listing does not change what `process_dir` does: a
`FileNotFoundError` while statting a file child is swallowed and the child
treated as absent for the pass, the remaining children being processed
exactly as if it had not been listed.  (For a vanished *subdirectory*
child the error propagates — see the counterexample — and a vanished
directory itself yields the empty summary by definition.) -/
theorem c8_vanished_file_children_treated_absent (now : Int) (obs : FsObs) :
    ∀ (fuel : Nat) (j : Nat) (st : WSt),
    process_dir now (pruneObs obs) fuel j st = process_dir now obs fuel j st
  | 0, j, st => rfl
  | fuel + 1, j, st => by
    show process_dir now (pruneObs obs) (fuel + 1) j st =
      process_dir now obs (fuel + 1) j st
    unfold process_dir
    cases hent : alookup st.inode_map j with
    | none => rfl
    | some e =>
      cases e with
      | file f => rfl
      | dir d0 =>
        cases hobs : obs j with
        | none => simp [pruneObs, hobs]
        | some L =>
          simp only [pruneObs, hobs, Option.map_some']
          rw [filesFold_filter_vanished]
          exact processTail_congr _ _
            (c8_vanished_file_children_treated_absent now obs fuel) _ _ _ _ _

/-- Counterexample to claim C6 as stated.  Reconciling directory 1 emits a
`create_dir` event for child inode 7 even though 7 is already a key of
`inode_map` at the time of the rescan: the `create_dir` emission is guarded
only by membership in the parent's recorded child-dir set, not by
`inode_map` membership (only `create_file` has that guard). -/
theorem c6_create_dir_for_tracked_inode :
    process_dir 0 c6Obs 2 1 c6St =
      .ok (⟨[(1, .dir ⟨3, ".", [], [7]⟩), (7, .dir ⟨9, "./d", [], []⟩)],
            [new_event 9 7], 21, [20]⟩,
           [CreateDirEv 7 "./d" 9 0]) ∧
    alookup c6St.inode_map 7 ≠ none := by
  decide

end Tangle
